import Mathlib

/-!
Verification of the goavro codec core (src/codec.go, src/json_encoder.go)
against its natural-language specification.

Modelling conventions:
* byte streams are `List Nat` with each byte `< 256`;
* an `io.Writer`-based encoder is modelled as a function returning the bytes
  it wrote together with an optional error (`List Nat × Option String`);
* an `io.Reader`-based decoder is modelled as a function from the input bytes
  to `Except String (value × remaining bytes)`;
* Go `string` values that travel through the binary codecs are byte lists;
  schema-level identifiers (type names, field names, enum symbols) are Lean
  `String`s;
* Go errors are modelled as plain strings: the `friendlyName` prefix described
  in spec section 7 is rendered as `friendlyName ++ ": " ++ message`.
-/

namespace Goavro

/-! ## Primitive I/O (modelled from the spec)

The repository's variable-length integer and string primitives live in
`encoder.go`/`decoder.go`, which are not under src/.  They are modelled from
spec section 4.1. -/

/-- Modelled from the spec: the zig-zag mapping `n → (n<<1) ^ (n>>bits-1)`
which folds signed integers into unsigned naturals (`encoder.go`, not in
src/).  For `n ≥ 0` it yields `2*n`, for `n < 0` it yields `-2*n - 1`. -/
def zigzag (n : Int) : Nat :=
  if 0 ≤ n then (2 * n).toNat else (-2 * n - 1).toNat

/-- Modelled from the spec: the inverse of `zigzag`, used by the integer
decoders (`decoder.go`, not in src/). -/
def unzigzag (u : Nat) : Int :=
  if u % 2 = 0 then ((u / 2 : Nat) : Int) else -((u / 2 : Nat) : Int) - 1

/-- Auxiliary for `varintEncode`, structurally recursive on a fuel bound:
with `n ≤ fuel` the zero-fuel arm is only reached when `n < 128`, where it
agrees with the one-byte case. -/
def varintEncodeAux : Nat → Nat → List Nat
  | 0, n => [n]
  | fuel + 1, n =>
    if n < 128 then [n] else (n % 128 + 128) :: varintEncodeAux fuel (n / 128)

/-- Modelled from the spec: base-128 little-endian encoding with the `0x80`
continuation bit, 7 data bits per byte (`encoder.go`, not in src/). -/
def varintEncode (n : Nat) : List Nat := varintEncodeAux n n

/-- Modelled from the spec: base-128 little-endian decoding; fails with a
short-read error when the stream ends mid-value and rejects continuation
sequences longer than `maxBytes` (`decoder.go`, not in src/). -/
def varintDecode : Nat → List Nat → Except String (Nat × List Nat)
  | _, [] => .error "short read"
  | 0, _ :: _ => .error "continuation sequence too long"
  | maxBytes + 1, b :: rest =>
    if b < 128 then .ok (b, rest)
    else
      match varintDecode maxBytes rest with
      | .ok (v, rest2) => .ok ((b - 128) + 128 * v, rest2)
      | .error e => .error e

/-- Modelled from the spec: `intEncoder` writes the zig-zag varint form of a
32-bit integer (`encoder.go`, not in src/). -/
def intEncoder (n : Int) : List Nat := varintEncode (zigzag n)

/-- Modelled from the spec: `longEncoder` writes the zig-zag varint form of a
64-bit integer; the byte-level mapping is the same as `intEncoder`
(`encoder.go`, not in src/). -/
def longEncoder (n : Int) : List Nat := varintEncode (zigzag n)

/-- Modelled from the spec: `intDecoder` reads a zig-zag varint of at most 5
bytes (`decoder.go`, not in src/). -/
def intDecoder (input : List Nat) : Except String (Int × List Nat) :=
  (varintDecode 5 input).map (fun p => (unzigzag p.1, p.2))

/-- Modelled from the spec: `longDecoder` reads a zig-zag varint of at most 10
bytes (`decoder.go`, not in src/). -/
def longDecoder (input : List Nat) : Except String (Int × List Nat) :=
  (varintDecode 10 input).map (fun p => (unzigzag p.1, p.2))

/-- Modelled from the spec: `stringEncoder` writes a `long` length followed by
the raw bytes (`encoder.go`, not in src/). -/
def stringEncoder (s : List Nat) : List Nat := longEncoder s.length ++ s

/-- Modelled from the spec: `stringDecoder` reads a `long` length `≥ 0`
followed by that many raw bytes; short input is a short-read error
(`decoder.go`, not in src/). -/
def stringDecoder (input : List Nat) : Except String (List Nat × List Nat) :=
  match longDecoder input with
  | .error e => .error e
  | .ok (n, rest) =>
    if n < 0 then .error "negative length"
    else if rest.length < n.toNat then .error "short read"
    else .ok (rest.take n.toNat, rest.drop n.toNat)

/-! ## The in-memory value model

Go's `interface\x7b\x7d` datum is modelled as a tagged sum, following the
runtime types the codecs accept and produce (codec.go lines 482-500, 640-646,
743-746).  Go `string` payloads that travel through the binary codecs are byte
lists; schema-level identifiers are Lean strings. -/

/-- Corresponds to `Enum` (codec.go lines 644-646). -/
structure EnumD where
  name : String
  value : String

/-- Corresponds to `Fixed` (codec.go lines 743-746). -/
structure FixedD where
  name : String
  value : List Nat

mutual

inductive Datum where
  | dnull
  | dbool (b : Bool)
  | dint32 (i : Int)
  | dint64 (i : Int)
  | dfloat32 (bits : Nat)
  | dfloat64 (bits : Nat)
  | dbytes (bs : List Nat)
  | dstring (s : List Nat)
  | darray (items : List Datum)
  | dmap (entries : List (List Nat × Datum))
  | denum (e : EnumD)
  | dfixed (f : FixedD)
  | drecord (r : RecordD)

/-- Corresponds to `*Record` (record.go is not in src/; the fields used by
codec.go are `Name`, `Fields`, and per field `Name`, `Datum`, `hasDefault`,
`defval`, spec section 3 "Record value"). -/
inductive RecordD where
  | mk (name : String) (fields : List FieldD)

inductive FieldD where
  | mk (name : String) (datum : Datum) (hasDefault : Bool) (defval : Datum)

end

def RecordD.name : RecordD → String
  | .mk n _ => n

def RecordD.fields : RecordD → List FieldD
  | .mk _ fs => fs

def FieldD.name : FieldD → String
  | .mk n _ _ _ => n

def FieldD.datum : FieldD → Datum
  | .mk _ d _ _ => d

def FieldD.hasDefault : FieldD → Bool
  | .mk _ _ h _ => h

def FieldD.defval : FieldD → Datum
  | .mk _ _ _ v => v

/-- `reflect.ValueOf(x).IsValid()`: false exactly for the nil interface.  An
Avro `null` datum is the nil interface in Go, so it is the one invalid case. -/
def isValidGoValue : Datum → Bool
  | .dnull => false
  | _ => true

/-- A binary encoder: returns the bytes it wrote to the `io.Writer` together
with an optional error. -/
abbrev BinEncoder := Datum → List Nat × Option String

/-- A binary decoder: consumes bytes from the front of the input. -/
abbrev BinDecoder := List Nat → Except String (Datum × List Nat)

/-! ## Go maps as association lists

A Go `map` is modelled as an association list where insertion overwrites the
existing binding of an equal key. -/

def goLookup [DecidableEq κ] (m : List (κ × α)) (k : κ) : Option α :=
  (m.find? (fun kv => decide (kv.1 = k))).map (fun kv => kv.2)

def goInsert [DecidableEq κ] (m : List (κ × α)) (k : κ) (v : α) : List (κ × α) :=
  if (m.find? (fun kv => decide (kv.1 = k))).isSome then
    m.map (fun kv => if kv.1 = k then (k, v) else kv)
  else
    m ++ [(k, v)]

/-! ## Generic JSON values

`encoding/json` with `UseNumber` produces nil / bool / `json.Number` / string
/ `[]interface\x7b\x7d` / `map[string]interface\x7b\x7d`.  A numeric token is
kept as a token (`JNum`); the model distinguishes plain optionally-signed
decimal integer tokens from tokens with a fraction or exponent part. -/

inductive JNum where
  | int (i : Int)
  | nonInt (tok : String)
deriving DecidableEq

inductive Json where
  | null
  | bool (b : Bool)
  | num (n : JNum)
  | str (s : String)
  | arr (xs : List Json)
  | obj (kvs : List (String × Json))

/-- A JSON decoder working on an already-parsed generic JSON value (the Go
code re-serializes subtrees and feeds them to the child decoder, which parses
them back: the composition passes the generic value through). -/
abbrev JsonValDecoder := Json → Except String Datum

/-! ## Errors

`newEncoderError` / `newDecoderError` live in `errors.go`, which is not in
src/.  Modelled from the spec (section 7): every error carries a
human-readable friendly-name prefix and a message. -/

/-- Modelled from the spec: encode-side error with friendly-name prefix. -/
def newEncoderError (friendlyName msg : String) : String :=
  friendlyName ++ ": " ++ msg

/-- Modelled from the spec: decode-side error with friendly-name prefix. -/
def newDecoderError (friendlyName msg : String) : String :=
  friendlyName ++ ": " ++ msg

/-! ## JSON decoders for the numeric primitives (codec.go lines 1345-1391) -/

/-- Modelled semantics of `json.Number.Int64` (Go standard library,
`strconv.ParseInt`): succeeds exactly on plain integer tokens whose value fits
in a signed 64-bit integer. -/
def jsonNumberInt64 (n : JNum) : Except String Int :=
  match n with
  | .int i =>
    if -9223372036854775808 ≤ i ∧ i < 9223372036854775808 then .ok i
    else .error "value out of range"
  | .nonInt _ => .error "invalid syntax"

/-- Go's `int32(x)` conversion of an `int64`: two's-complement truncation to
32 bits. -/
def wrap32 (i : Int) : Int :=
  (i + 2147483648) % 4294967296 - 2147483648

/-- `intJSONDecoder` (codec.go lines 1365-1379): parse a generic JSON value,
require a `json.Number`, narrow via `Int64()`, and return `int32(someInt)`.
The `%T`/`%v` payloads of the error messages are elided. -/
def intJSONDecoder (j : Json) : Except String Datum :=
  match j with
  | .num someNumber =>
    match jsonNumberInt64 someNumber with
    | .ok someInt => .ok (.dint32 (wrap32 someInt))
    | .error _ => .error (newDecoderError "int" "expected int64")
  | _ => .error (newDecoderError "int" "expected json.Number")

/-- `longJSONDecoder` (codec.go lines 1381-1391): like `int` but returns the
`Int64()` result directly, propagating its error. -/
def longJSONDecoder (j : Json) : Except String Datum :=
  match j with
  | .num someNumber =>
    match jsonNumberInt64 someNumber with
    | .ok someInt => .ok (.dint64 someInt)
    | .error e => .error e
  | _ => .error (newDecoderError "long" "expected json.Number")

/-! ## The union codec (codec.go lines 378-638)

`makeUnionCodec` is modelled relative to its already-built member codecs: a
`UnionMember` carries the member codec's name (`c.nm.n`), its JSON type name
(`getUnionTypeName`), its binary encoder and its JSON decoder — the pieces the
union's own encode/decode closures read. -/

structure UnionMember where
  nmn : String
  tn : String
  ef : BinEncoder
  jdf : JsonValDecoder

/-- Corresponds to `unionEncoder` (codec.go lines 378-383); the `jef` field is
omitted because no claim touches the union JSON encoder. -/
structure UnionEncoderTableEntry where
  ef : BinEncoder
  tn : String
  index : Int

/-- The `nameToUnionEncoder` map built by the loop at codec.go lines 443-456:
keyed by the member codec's name, insertion order follows the member list. -/
def nameToUnionEncoderTable (members : List UnionMember) :
    List (String × UnionEncoderTableEntry) :=
  members.enum.foldl (fun m p => goInsert m p.2.nmn ⟨p.2.ef, p.2.tn, (p.1 : Int)⟩) []

/-- The `nameToJSONDecoder` map built by the same loop, keyed by the member's
JSON type name. -/
def nameToJSONDecoderTable (members : List UnionMember) :
    List (String × JsonValDecoder) :=
  members.foldl (fun m c => goInsert m c.tn c.jdf) []

/-- `allowedNames` (codec.go line 448). -/
def allowedNames (members : List UnionMember) : List String :=
  members.map (fun c => c.nmn)

/-- After the member loop the union's friendly name is `union (union)`
(codec.go lines 462-463). -/
def unionFriendlyName : String := "union (union)"

/-- The `invalidType` message prefix (codec.go lines 458-460). -/
def unionInvalidType (members : List UnionMember) : String :=
  "datum ought match schema: expected: " ++
    String.intercalate ", " (allowedNames members) ++ "; received: "

/-- The discriminator name derived from the runtime value by the type switch
in the union binary encoder (codec.go lines 485-500); the `default` branch is
`reflect.TypeOf(datum).String()`, which yields the Go type names used to key
the primitive codecs (codec.go lines 149-161). -/
def datumUnionName : Datum → String
  | .dnull => "null"
  | .dbool _ => "bool"
  | .dint32 _ => "int32"
  | .dint64 _ => "int64"
  | .dfloat32 _ => "float32"
  | .dfloat64 _ => "float64"
  | .dbytes _ => "[]uint8"
  | .dstring _ => "string"
  | .darray _ => "array"
  | .dmap _ => "map"
  | .denum e => e.name
  | .dfixed f => f.name
  | .drecord r => r.name

/-- The union binary encoder closure (codec.go lines 482-513). -/
def unionEf (members : List UnionMember) (datum : Datum) :
    List Nat × Option String :=
  let nm := datumUnionName datum
  match goLookup (nameToUnionEncoderTable members) nm with
  | none => ([], some (newEncoderError unionFriendlyName (unionInvalidType members ++ nm)))
  | some ue =>
    let idxBytes := intEncoder ue.index
    match ue.ef datum with
    | (bs, some e) => (idxBytes ++ bs, some (newEncoderError unionFriendlyName e))
    | (bs, none) => (idxBytes ++ bs, none)

/-- The union JSON decoder closure (codec.go lines 514-564).  The input is the
one generic JSON value parsed from the reader.  For an object, Go ranges over
the map and takes the first iterated entry (the model fixes the association
list order); for an empty object `typeName` stays `""` and `value` stays the
parsed map.  The `%v` payload of the "unsupported union value" message is
elided. -/
def unionJdf (members : List UnionMember) (j : Json) : Except String Datum :=
  match j with
  | .null =>
    match goLookup (nameToJSONDecoderTable members) "null" with
    | none => .error (newDecoderError unionFriendlyName ("unknown union type " ++ "null"))
    | some f => f .null
  | .obj kvs =>
    let p := match kvs with
      | [] => ("", Json.obj kvs)
      | (k, v) :: _ => (k, v)
    match goLookup (nameToJSONDecoderTable members) p.1 with
    | none => .error (newDecoderError unionFriendlyName ("unknown union type " ++ p.1))
    | some f => f p.2
  | _ => .error (newDecoderError unionFriendlyName "unsupported union value")

/-! ## UTF-8 bytes of a Lean string

Schema-level identifiers are Lean strings while Go strings inside datum
values are byte lists; `strBytes` is the UTF-8 encoding connecting the two
(Go string equality is byte equality). -/

def charUtf8 (c : Char) : List Nat :=
  let n := c.toNat
  if n < 128 then [n]
  else if n < 2048 then [192 + n / 64, 128 + n % 64]
  else if n < 65536 then [224 + n / 4096, 128 + n / 64 % 64, 128 + n % 64]
  else [240 + n / 262144, 128 + n / 4096 % 64, 128 + n / 64 % 64, 128 + n % 64]

def strBytes (s : String) : List Nat :=
  s.data.flatMap charUtf8

/-! ## Name resolution (modelled from the spec)

`name.go` is not in src/; spec section 4.2 describes `newName`: split a
dotted name on the last dot, and require the short name to match
`[A-Za-z_][A-Za-z0-9_]*`. -/

/-- The suffix after the last `'.'` of a character list (the whole list when
no dot occurs). -/
def afterLastDot : List Char → List Char
  | [] => []
  | c :: cs =>
    if cs.contains '.' then afterLastDot cs
    else if c = '.' then cs
    else c :: cs

/-- Modelled from the spec: the short-name component of a possibly dotted
name (the part after the last dot). -/
def goShortname (s : String) : String :=
  String.mk (afterLastDot s.data)

/-- Modelled from the spec: short names must match `[A-Za-z_][A-Za-z0-9_]*`. -/
def validAvroName (s : String) : Bool :=
  match s.data with
  | [] => false
  | c :: cs => (c.isAlpha || c == '_') && cs.all (fun d => d.isAlphanum || d == '_')

/-- Modelled from the spec: `newName(nameName(s)).shortname()` with the
validity check of section 4.2. -/
def newNameShort (s : String) : Except String String :=
  let short := goShortname s
  if validAvroName short then .ok short else .error ("invalid name: " ++ short)

/-! ## Serialization of generic JSON values

Models `encoding/json.Marshal` applied to generic values (Go standard
library, external to the repository): no whitespace, object keys sorted
bytewise, strings escaped with Go's escape set (`"`→`\"`, `\`→`\\`,
newline/CR/tab→`\n`/`\r`/`\t`, `<`/`>`/`&`, other control characters and
U+2028/U+2029 → `\u00xx` with lowercase hex).  Numeric values are restricted
to integer tokens; the `nonInt` case prints its raw token and is outside the
model (Go would reformat it through float64). -/

def lbraceChar : Char := Char.ofNat 123

def rbraceChar : Char := Char.ofNat 125

/-- Auxiliary for `natDigits`, structurally recursive on a fuel bound: with
`n ≤ fuel` the zero-fuel arm is only reached when `n < 10`, where it agrees
with the one-digit case. -/
def natDigitsAux : Nat → Nat → List Char
  | 0, n => [Char.ofNat (48 + n)]
  | fuel + 1, n =>
    if n < 10 then [Char.ofNat (48 + n)]
    else natDigitsAux fuel (n / 10) ++ [Char.ofNat (48 + n % 10)]

def natDigits (n : Nat) : List Char := natDigitsAux n n

def intDigits (i : Int) : List Char :=
  if i < 0 then '-' :: natDigits (-i).toNat else natDigits i.toNat

def hexDigitChar (n : Nat) : Char :=
  if n < 10 then Char.ofNat (48 + n) else Char.ofNat (87 + n)

def uEscape (n : Nat) : List Char :=
  ['\\', 'u', hexDigitChar (n / 4096 % 16), hexDigitChar (n / 256 % 16),
    hexDigitChar (n / 16 % 16), hexDigitChar (n % 16)]

def escapeChars : List Char → List Char
  | [] => []
  | c :: cs =>
    (if c == '"' then ['\\', '"']
     else if c == '\\' then ['\\', '\\']
     else if c == '\n' then ['\\', 'n']
     else if c == '\r' then ['\\', 'r']
     else if c == '\t' then ['\\', 't']
     else if c == '<' || c == '>' || c == '&' then uEscape c.toNat
     else if c.toNat < 32 || c.toNat == 8232 || c.toNat == 8233 then uEscape c.toNat
     else [c]) ++ escapeChars cs

def printStr (s : String) : List Char :=
  '"' :: escapeChars s.data ++ ['"']

/-- The characters of the literal `null`. -/
def nullTok : List Char := ['n', 'u', 'l', 'l']

/-- The characters of the literal `true`. -/
def trueTok : List Char := ['t', 'r', 'u', 'e']

/-- The characters of the literal `false`. -/
def falseTok : List Char := ['f', 'a', 'l', 's', 'e']

mutual

def printJ : Json → List Char
  | .null => nullTok
  | .bool true => trueTok
  | .bool false => falseTok
  | .num (.int i) => intDigits i
  | .num (.nonInt tok) => tok.data
  | .str s => printStr s
  | .arr xs => '[' :: printArr xs ++ [']']
  | .obj kvs => lbraceChar :: printObj kvs ++ [rbraceChar]

def printArr : List Json → List Char
  | [] => []
  | x :: t => printJ x ++ (if t.isEmpty then [] else ',' :: printArr t)

def printObj : List (String × Json) → List Char
  | [] => []
  | kv :: t =>
    printStr kv.1 ++ ':' :: printJ kv.2 ++ (if t.isEmpty then [] else ',' :: printObj t)

end

/-- Insertion into a key-sorted association list, overwriting an equal key:
the canonical representation of a Go `map[string]interface\x7b\x7d` whose
marshalled key order is sorted. -/
def sortedInsert (m : List (String × Json)) (k : String) (v : Json) :
    List (String × Json) :=
  match m with
  | [] => [(k, v)]
  | kv0 :: t =>
    if k < kv0.1 then (k, v) :: kv0 :: t
    else if k = kv0.1 then (k, v) :: t
    else kv0 :: sortedInsert t k v

def sortObjList (kvs : List (String × Json)) : List (String × Json) :=
  kvs.foldl (fun m kv => sortedInsert m kv.1 kv.2) []

mutual

/-- Key-sorts every object of a generic JSON value, as `json.Marshal` does
for Go maps. -/
def sortJson : Json → Json
  | .obj kvs => .obj (sortObjList (sortKvs kvs))
  | .arr xs => .arr (sortArr xs)
  | j => j

def sortKvs : List (String × Json) → List (String × Json)
  | [] => []
  | kv :: t => (kv.1, sortJson kv.2) :: sortKvs t

def sortArr : List Json → List Json
  | [] => []
  | x :: t => sortJson x :: sortArr t

end

/-- `json.Marshal` of a generic value (keys of nested maps sorted). -/
def marshalGeneric (j : Json) : List Char :=
  printJ (sortJson j)

/-- `OrderedMap.MarshalJSON` (codec.go lines 839-864): write `\x7b`, then for
each pair the marshalled key, `:`, the marshalled value, comma-separated,
then `\x7d`. -/
def marshalOrderedMap (omap : List (String × Json)) : String :=
  String.mk (lbraceChar ::
    ((omap.map (fun kv => printStr kv.1 ++ ':' :: marshalGeneric kv.2)).intersperse [',']).flatten
    ++ [rbraceChar])

/-! ## The record codec (codec.go lines 866-1021) -/

/-- The friendly name used by the record closures after the template is built
(codec.go line 894). -/
def recordFriendly (nm : String) : String := "record (" ++ nm ++ ")"

/-- The per-field value selection shared by the record binary and JSON
encoders (codec.go lines 918-926 and 975-983): caller-supplied datum when
valid, else the default when `hasDefault`, else an error. -/
def recordSelectValue (fn : String) (f : FieldD) : Except String Datum :=
  if isValidGoValue f.datum then .ok f.datum
  else if f.hasDefault then .ok f.defval
  else .error (newEncoderError fn ("field has no data and no default set: " ++ f.name))

/-- The loop of the record binary encoder (codec.go lines 917-931): iterate
the caller record's fields with their index, encode each selected value with
`fieldCodecs[idx]`.  Go panics when `idx` is out of range of `fieldCodecs`;
the model returns the runtime error as an error value. -/
def recordEfLoop (fieldCodecs : List BinEncoder) (fn : String) :
    Nat → List FieldD → List Nat × Option String
  | _, [] => ([], none)
  | idx, f :: fs =>
    match recordSelectValue fn f with
    | .error e => ([], some e)
    | .ok value =>
      match fieldCodecs[idx]? with
      | none => ([], some "panic: runtime error: index out of range")
      | some c =>
        match c value with
        | (bs, some e) => (bs, some (newEncoderError fn e))
        | (bs, none) =>
          let r := recordEfLoop fieldCodecs fn (idx + 1) fs
          (bs ++ r.1, r.2)

/-- The record binary encoder closure (codec.go lines 909-933). -/
def recordEf (fieldCodecs : List BinEncoder) (templateName : String)
    (d : Datum) : List Nat × Option String :=
  let fn := recordFriendly templateName
  match d with
  | .drecord r =>
    if r.name = templateName then recordEfLoop fieldCodecs fn 0 r.fields
    else ([], some (newEncoderError fn ("expected: " ++ templateName ++ "; received: " ++ r.name)))
  | _ => ([], some (newEncoderError fn "expected: Record"))

/-- Spec-side definition for C4: process the fields in declared order; for
each field encode the caller-supplied datum when present, else the default
when the field has one, else fail with the "field has no data and no default
set" error; concatenate the per-field encodings with no framing bytes. -/
def recordFieldsEncodeSpec (fn : String) :
    List BinEncoder → List FieldD → List Nat × Option String
  | _, [] => ([], none)
  | cs, f :: fs =>
    match recordSelectValue fn f with
    | .error e => ([], some e)
    | .ok v =>
      match cs with
      | [] => ([], some "panic: runtime error: index out of range")
      | c :: cs' =>
        match c v with
        | (bs, some e) => (bs, some (newEncoderError fn e))
        | (bs, none) =>
          let r := recordFieldsEncodeSpec fn cs' fs
          (bs ++ r.1, r.2)

/-- A field's JSON encoder: produces the generic JSON value obtained by
writing the child's Avro-JSON bytes to a buffer and re-parsing them
(codec.go lines 984-999). -/
abbrev JsonValEncoder := Datum → Except String Json

/-- The loop of the record JSON encoder (codec.go lines 974-1006): select the
field value, JSON-encode it with `fieldCodecs[idx]`, compute the short name
of the field, and append the pair to the ordered map. -/
def recordJefLoop (fieldCodecs : List JsonValEncoder) (fn : String) :
    Nat → List FieldD → Except String (List (String × Json))
  | _, [] => .ok []
  | idx, f :: fs =>
    match recordSelectValue fn f with
    | .error e => .error e
    | .ok value =>
      match fieldCodecs[idx]? with
      | none => .error "panic: runtime error: index out of range"
      | some c =>
        match c value with
        | .error e => .error (newEncoderError fn e)
        | .ok jsonValue =>
          match newNameShort f.name with
          | .error e => .error (newEncoderError fn e)
          | .ok short =>
            match recordJefLoop fieldCodecs fn (idx + 1) fs with
            | .error e => .error e
            | .ok rest => .ok ((short, jsonValue) :: rest)

/-- The record JSON encoder closure (codec.go lines 963-1017): build the
ordered map in field order and marshal it with `OrderedMap.MarshalJSON`. -/
def recordJef (fieldCodecs : List JsonValEncoder) (templateName : String)
    (d : Datum) : Except String String :=
  let fn := recordFriendly templateName
  match d with
  | .drecord r =>
    if r.name = templateName then
      match recordJefLoop fieldCodecs fn 0 r.fields with
      | .error e => .error e
      | .ok omap => .ok (marshalOrderedMap omap)
    else .error (newEncoderError fn ("expected: " ++ templateName ++ "; received: " ++ r.name))
  | _ => .error (newEncoderError fn "expected: Record")

/-- Spec-side definition for C5: the ordered key/value list whose key
sequence is the schema-declared field sequence and whose values are the field
codecs' Avro-JSON encodings of the field's datum (or default). -/
def recordFieldsToJsonSpec (fn : String) :
    List JsonValEncoder → List FieldD → Except String (List (String × Json))
  | _, [] => .ok []
  | cs, f :: fs =>
    match recordSelectValue fn f with
    | .error e => .error e
    | .ok v =>
      match cs with
      | [] => .error "panic: runtime error: index out of range"
      | c :: cs' =>
        match c v with
        | .error e => .error (newEncoderError fn e)
        | .ok jsonValue =>
          match newNameShort f.name with
          | .error e => .error (newEncoderError fn e)
          | .ok short =>
            match recordFieldsToJsonSpec fn cs' fs with
            | .error e => .error e
            | .ok rest => .ok ((short, jsonValue) :: rest)

/-! ## The array codec, encode side (codec.go lines 1176-1319) -/

/-- The friendly name used by the array closures (codec.go lines 1198-1199). -/
def arrayFriendlyName : String := "array (array)"

/-- The inner loop of the array binary encoder: encode each item of one
block, wrapping an item error with the friendly name (codec.go lines
1251-1256). -/
def arrayEncodeItems (vef : BinEncoder) (fn : String) :
    List Datum → List Nat × Option String
  | [] => ([], none)
  | x :: xs =>
    match vef x with
    | (bs, some e) => (bs, some (newEncoderError fn e))
    | (bs, none) =>
      let r := arrayEncodeItems vef fn xs
      (bs ++ r.1, r.2)

/-- The block loop of the array binary encoder (codec.go lines 1241-1257):
take blocks of at most 10 items (`itemsPerArrayBlock`), for each write the
positive `long` count then the encoded items. -/
def arrayEfLoopAux (vef : BinEncoder) (fn : String) :
    Nat → List Datum → List Nat × Option String
  | _, [] => ([], none)
  | 0, _ :: _ => ([], some "model: fuel exhausted")
  | fuel + 1, x :: rest =>
    let someArray := x :: rest
    let items := someArray.take 10
    let cnt := longEncoder (items.length : Int)
    match arrayEncodeItems vef fn items with
    | (bs, some e) => (cnt ++ bs, some e)
    | (bs, none) =>
      let r := arrayEfLoopAux vef fn fuel (someArray.drop 10)
      (cnt ++ bs ++ r.1, r.2)

/-- The block loop of the array binary encoder (codec.go lines 1241-1257),
with a structural fuel bound: every block consumes at least one element, so
starting the fuel at the list length never exhausts it. -/
def arrayEfLoop (vef : BinEncoder) (fn : String) (l : List Datum) :
    List Nat × Option String :=
  arrayEfLoopAux vef fn l.length l

/-- The array binary encoder closure (codec.go lines 1236-1259): blocks, then
the terminating `long` `0`. -/
def arrayEf (vef : BinEncoder) (d : Datum) : List Nat × Option String :=
  match d with
  | .darray xs =>
    match arrayEfLoop vef arrayFriendlyName xs with
    | (bs, some e) => (bs, some e)
    | (bs, none) => (bs ++ longEncoder 0, none)
  | _ => ([], some (newEncoderError arrayFriendlyName "expected: array"))

def chunks10Aux : Nat → List α → List (List α)
  | _, [] => []
  | 0, x :: rest => [x :: rest]
  | fuel + 1, x :: rest => ((x :: rest).take 10) :: chunks10Aux fuel ((x :: rest).drop 10)

/-- Chunks of at most 10 elements, the block structure of C6 (the fuel bound
starts at the list length and is never exhausted). -/
def chunks10 (l : List α) : List (List α) := chunks10Aux l.length l

/-- Spec-side definition for C6: one block per chunk — the positive `long`
count followed by the encoded elements — then the terminating `long` `0`. -/
def arrayEncodeSpec (vef : BinEncoder) (xs : List Datum) : List Nat :=
  ((chunks10 xs).map
    (fun ch => longEncoder (ch.length : Int) ++ (ch.map (fun x => (vef x).1)).flatten)).flatten
  ++ longEncoder 0

/-! ## The map and array codecs, decode side (codec.go lines 1049-1088 and
1203-1234) -/

def mapFriendlyName : String := "map (map)"

/-- The inner loop of the map binary decoder (codec.go lines 1066-1080): read
`blockCount` key/value pairs; a key error is wrapped with the friendly name,
a value error is returned unmodified (line 1077); `data[mapKey] = datum`
overwrites an earlier binding of the same key. -/
def decodeMapEntries (vdf : BinDecoder) (fn : String) :
    Nat → List (List Nat × Datum) → List Nat →
    Except String (List (List Nat × Datum) × List Nat)
  | 0, data, input => .ok (data, input)
  | n + 1, data, input =>
    match stringDecoder input with
    | .error e => .error (newDecoderError fn e)
    | .ok (mapKey, input1) =>
      match vdf input1 with
      | .error e => .error e
      | .ok (datum, input2) => decodeMapEntries vdf fn n (goInsert data mapKey datum) input2

/-- The block loop of the map binary decoder (codec.go lines 1057-1087): stop
at count `0`; on a negative count negate it and read-and-discard one `long`
(the block byte-size hint); decode the entries; read the next count.  The
`fuel` parameter bounds the number of loop iterations; every iteration
consumes at least one input byte (the trailing count read), so starting the
fuel at `input.length + 1` never exhausts it. -/
def mapDfLoop (vdf : BinDecoder) (fn : String) :
    Nat → Int → List (List Nat × Datum) → List Nat →
    Except String (List (List Nat × Datum) × List Nat)
  | fuel, blockCount, data, input =>
    if blockCount = 0 then .ok (data, input)
    else
      match fuel with
      | 0 => .error "model: decode loop fuel exhausted"
      | fuel + 1 =>
        let hintRead : Except String (Int × List Nat) :=
          if blockCount < 0 then
            match longDecoder input with
            | .error e => .error (newDecoderError fn e)
            | .ok (_, rest) => .ok (-blockCount, rest)
          else .ok (blockCount, input)
        match hintRead with
        | .error e => .error e
        | .ok (cnt, input1) =>
          match decodeMapEntries vdf fn cnt.toNat data input1 with
          | .error e => .error e
          | .ok (data2, input2) =>
            match longDecoder input2 with
            | .error e => .error (newDecoderError fn e)
            | .ok (next, input3) => mapDfLoop vdf fn fuel next data2 input3

/-- The map binary decoder closure (codec.go lines 1049-1088).  The returned
association list is the decoded Go map; the second component is the unread
input suffix. -/
def mapDf (vdf : BinDecoder) (input : List Nat) :
    Except String (List (List Nat × Datum) × List Nat) :=
  match longDecoder input with
  | .error e => .error (newDecoderError mapFriendlyName e)
  | .ok (c, rest) => mapDfLoop vdf mapFriendlyName (rest.length + 1) c [] rest

/-- The inner loop of the array binary decoder (codec.go lines 1221-1227): an
element error is wrapped with the friendly name; elements are appended in
order. -/
def decodeArrayEntries (vdf : BinDecoder) (fn : String) :
    Nat → List Datum → List Nat → Except String (List Datum × List Nat)
  | 0, data, input => .ok (data, input)
  | n + 1, data, input =>
    match vdf input with
    | .error e => .error (newDecoderError fn e)
    | .ok (datum, input1) => decodeArrayEntries vdf fn n (data ++ [datum]) input1

/-- The block loop of the array binary decoder (codec.go lines 1212-1233),
identical in structure to the map loop minus the key read. -/
def arrayDfLoop (vdf : BinDecoder) (fn : String) :
    Nat → Int → List Datum → List Nat → Except String (List Datum × List Nat)
  | fuel, blockCount, data, input =>
    if blockCount = 0 then .ok (data, input)
    else
      match fuel with
      | 0 => .error "model: decode loop fuel exhausted"
      | fuel + 1 =>
        let hintRead : Except String (Int × List Nat) :=
          if blockCount < 0 then
            match longDecoder input with
            | .error e => .error (newDecoderError fn e)
            | .ok (_, rest) => .ok (-blockCount, rest)
          else .ok (blockCount, input)
        match hintRead with
        | .error e => .error e
        | .ok (cnt, input1) =>
          match decodeArrayEntries vdf fn cnt.toNat data input1 with
          | .error e => .error e
          | .ok (data2, input2) =>
            match longDecoder input2 with
            | .error e => .error (newDecoderError fn e)
            | .ok (next, input3) => arrayDfLoop vdf fn fuel next data2 input3

/-- The array binary decoder closure (codec.go lines 1203-1234). -/
def arrayDf (vdf : BinDecoder) (input : List Nat) :
    Except String (List Datum × List Nat) :=
  match longDecoder input with
  | .error e => .error (newDecoderError arrayFriendlyName e)
  | .ok (c, rest) => arrayDfLoop vdf arrayFriendlyName (rest.length + 1) c [] rest

/-! ## The enum codec (codec.go lines 648-735) -/

def enumFriendly (nm : String) : String := "enum (" ++ nm ++ ")"

/-- The enum binary encoder closure (codec.go lines 696-715): accept an Enum
value or a Go string, find the first matching symbol, write its index as a
`long`.  Symbol comparison is Go string equality, i.e. byte equality; the
`%s`/`%T` payloads of the error messages are elided. -/
def enumEf (symbols : List String) (nmn : String) (d : Datum) :
    List Nat × Option String :=
  let fn := enumFriendly nmn
  let someString : Except String (List Nat) :=
    match d with
    | .denum e => .ok (strBytes e.value)
    | .dstring s => .ok s
    | _ => .error (newEncoderError fn "expected: Enum or string")
  match someString with
  | .error e => ([], some e)
  | .ok sb =>
    match symbols.findIdx? (fun symbol => decide (strBytes symbol = sb)) with
    | some idx => (longEncoder (idx : Int), none)
    | none => ([], some (newEncoderError fn "symbol not defined"))

/-- The enum binary decoder closure (codec.go lines 682-695): read a `long`
index, fail when it is outside `[0, len(symbols))`, otherwise return the Enum
with the symbol at that index. -/
def enumDf (symbols : List String) (nmn : String) (input : List Nat) :
    Except String (Datum × List Nat) :=
  let fn := enumFriendly nmn
  match longDecoder input with
  | .error e => .error (newDecoderError fn e)
  | .ok (index, rest) =>
    if h : 0 ≤ index ∧ index < (symbols.length : Int) then
      .ok (.denum ⟨nmn, symbols.get ⟨index.toNat, by omega⟩⟩, rest)
    else
      .error (newDecoderError fn ("index must be between 0 and " ++ toString (symbols.length - 1)))

/-! ## The fixed codec, JSON decode side (codec.go lines 804-814) -/

/-- The outcome of a Go call that may panic. -/
inductive GoOutcome (α : Type) where
  | ok (a : α)
  | err (e : String)
  | panicked (msg : String)
deriving DecidableEq

def fixedFriendly (nm : String) : String := "fixed (" ++ nm ++ ")"

/-- The unchecked type assertion `someValue.([]byte)` at codec.go line 809.
`newJSONDecoder("string")` returns a value parsed by `encoding/json` with
`UseNumber`, whose dynamic type is one of nil, bool, `json.Number`, string,
`[]interface\x7b\x7d` or `map[string]interface\x7b\x7d` — never `[]uint8` —
so the assertion holds for no parsed JSON value. -/
def goTypeAssertBytes : Json → Option (List Nat)
  | _ => none

/-- The fixed JSON decoder closure (codec.go lines 804-814): parse one
generic JSON value, assert it is a `[]byte` (uncheckedly — a failed assertion
is a Go runtime panic), then compare its length against the declared size. -/
def fixedJdf (size : Int) (nmn : String) (j : Json) : GoOutcome Datum :=
  match goTypeAssertBytes j with
  | none => .panicked "interface conversion: interface is not []uint8"
  | some someFixed =>
    if (someFixed.length : Int) < size then
      .err (newDecoderError (fixedFriendly nmn) "buffer underrun")
    else .ok (.dfixed ⟨nmn, someFixed⟩)

/-! ## Parsing JSON text (modelled from the Go standard library)

`NewCodec` canonicalizes the schema text by `json.Unmarshal` then
`json.Marshal` (codec.go lines 220-249).  The parser below models
`encoding/json.Unmarshal` into a generic value: whitespace per RFC 7159,
literals, strings with the standard escapes, arrays, objects (decoded into a
Go map, modelled as a key-sorted overwrite-on-duplicate association list).
Numeric tokens are restricted to plain optionally-signed integers: Go parses
arbitrary numbers through float64, whose parse/reformat behaviour is outside
this model, so fractional or exponent tokens are rejected instead. -/

def isWsChar (c : Char) : Bool :=
  c == ' ' || c == '\t' || c == '\n' || c == '\r'

def skipWs : List Char → List Char
  | [] => []
  | c :: cs => if isWsChar c then skipWs cs else c :: cs

def digitsToNat (ds : List Char) : Nat :=
  ds.foldl (fun acc c => acc * 10 + (c.toNat - 48)) 0

def hexVal (c : Char) : Option Nat :=
  if '0' ≤ c && c ≤ '9' then some (c.toNat - 48)
  else if 'a' ≤ c && c ≤ 'f' then some (c.toNat - 87)
  else if 'A' ≤ c && c ≤ 'F' then some (c.toNat - 55)
  else none

def escCharOf (e : Char) : Option Char :=
  if e == '"' then some '"'
  else if e == '\\' then some '\\'
  else if e == '/' then some '/'
  else if e == 'b' then some (Char.ofNat 8)
  else if e == 'f' then some (Char.ofNat 12)
  else if e == 'n' then some '\n'
  else if e == 'r' then some '\r'
  else if e == 't' then some '\t'
  else none

def parseStringBodyAux : Nat → List Char → Except String (List Char × List Char)
  | _, [] => .error "unexpected end of JSON input"
  | 0, _ :: _ => .error "model: fuel exhausted"
  | fuel + 1, c :: cs =>
    if c == '"' then .ok ([], cs)
    else if c == '\\' then
      match cs with
      | [] => .error "unexpected end of JSON input"
      | e :: cs2 =>
        if e == 'u' then
          match cs2 with
          | h1 :: h2 :: h3 :: h4 :: cs3 =>
            match hexVal h1, hexVal h2, hexVal h3, hexVal h4 with
            | some a, some b, some c3, some d =>
              match parseStringBodyAux fuel cs3 with
              | .error er => .error er
              | .ok (body, rest) =>
                .ok (Char.ofNat (4096 * a + 256 * b + 16 * c3 + d) :: body, rest)
            | _, _, _, _ => .error "invalid unicode escape"
          | _ => .error "unexpected end of JSON input"
        else
          match escCharOf e with
          | none => .error "invalid escape"
          | some ec =>
            match parseStringBodyAux fuel cs2 with
            | .error er => .error er
            | .ok (body, rest) => .ok (ec :: body, rest)
    else
      match parseStringBodyAux fuel cs with
      | .error er => .error er
      | .ok (body, rest) => .ok (c :: body, rest)

/-- Parse the body of a JSON string after its opening quote, returning the
decoded characters and the input after the closing quote (the fuel bound
starts at the input length and is never exhausted, since every step consumes
at least one character). -/
def parseStringBody (l : List Char) : Except String (List Char × List Char) :=
  parseStringBodyAux l.length l

/-- Parse an integer numeric token; fractional or exponent continuations are
outside the model and rejected. -/
def parseNumber (input : List Char) : Except String (Json × List Char) :=
  let p : Bool × List Char :=
    match input with
    | '-' :: t => (true, t)
    | _ => (false, input)
  let digits := p.2.takeWhile Char.isDigit
  let rest := p.2.dropWhile Char.isDigit
  if digits.isEmpty then .error "invalid number"
  else if digits.length > 1 && digits.head? == some '0' then .error "invalid number"
  else
    let v : Int := if p.1 then -(digitsToNat digits : Int) else (digitsToNat digits : Int)
    match rest with
    | c :: _ =>
      if c == '.' || c == 'e' || c == 'E' then .error "model: non-integer numeric token"
      else .ok (.num (.int v), rest)
    | [] => .ok (.num (.int v), [])

def stripChars (p : List Char) (l : List Char) : Option (List Char) :=
  match p, l with
  | [], l => some l
  | a :: ps, b :: ls => if a == b then stripChars ps ls else none
  | _ :: _, [] => none

mutual

/-- Parse one JSON value.  `fuel` bounds the recursion depth; the top-level
entry point supplies `input.length + 1`, which suffices because every
recursive call consumes at least one input character. -/
def parseVal : Nat → List Char → Except String (Json × List Char)
  | 0, _ => .error "model: parser fuel exhausted"
  | fuel + 1, input =>
    match skipWs input with
    | [] => .error "unexpected end of JSON input"
    | c :: cs =>
      if c == 'n' then
        match stripChars ['u', 'l', 'l'] cs with
        | some rest => .ok (.null, rest)
        | none => .error "invalid literal"
      else if c == 't' then
        match stripChars ['r', 'u', 'e'] cs with
        | some rest => .ok (.bool true, rest)
        | none => .error "invalid literal"
      else if c == 'f' then
        match stripChars ['a', 'l', 's', 'e'] cs with
        | some rest => .ok (.bool false, rest)
        | none => .error "invalid literal"
      else if c == '"' then
        match parseStringBody cs with
        | .error e => .error e
        | .ok (body, rest) => .ok (.str (String.mk body), rest)
      else if c == '[' then
        match skipWs cs with
        | ']' :: rest => .ok (.arr [], rest)
        | cs2 =>
          match parseItems fuel cs2 with
          | .error e => .error e
          | .ok (xs, rest) => .ok (.arr xs, rest)
      else if c == lbraceChar then
        match skipWs cs with
        | [] => .error "unexpected end of JSON input"
        | r :: rest =>
          if r == rbraceChar then .ok (.obj [], rest)
          else
            match parseMembers fuel (r :: rest) with
            | .error e => .error e
            | .ok (kvs, rest2) => .ok (.obj (sortObjList kvs), rest2)
      else if c == '-' || c.isDigit then parseNumber (c :: cs)
      else .error "invalid character"

/-- Parse the comma-separated items of a non-empty array, up to and including
the closing bracket. -/
def parseItems : Nat → List Char → Except String (List Json × List Char)
  | 0, _ => .error "model: parser fuel exhausted"
  | fuel + 1, input =>
    match parseVal fuel input with
    | .error e => .error e
    | .ok (x, rest) =>
      match skipWs rest with
      | ',' :: rest2 =>
        match parseItems fuel rest2 with
        | .error e => .error e
        | .ok (xs, rest3) => .ok (x :: xs, rest3)
      | ']' :: rest2 => .ok ([x], rest2)
      | _ => .error "invalid array"

/-- Parse the comma-separated members of a non-empty object, up to and
including the closing brace, in document order. -/
def parseMembers : Nat → List Char →
    Except String (List (String × Json) × List Char)
  | 0, _ => .error "model: parser fuel exhausted"
  | fuel + 1, input =>
    match skipWs input with
    | '"' :: cs =>
      match parseStringBody cs with
      | .error e => .error e
      | .ok (key, rest) =>
        match skipWs rest with
        | ':' :: rest2 =>
          match parseVal fuel rest2 with
          | .error e => .error e
          | .ok (v, rest3) =>
            match skipWs rest3 with
            | [] => .error "unexpected end of JSON input"
            | ',' :: rest4 =>
              match parseMembers fuel rest4 with
              | .error e => .error e
              | .ok (kvs, rest5) => .ok ((String.mk key, v) :: kvs, rest5)
            | r :: rest4 =>
              if r == rbraceChar then .ok ([(String.mk key, v)], rest4)
              else .error "invalid object"
        | _ => .error "invalid object"
    | _ => .error "invalid object key"

end

/-- `json.Unmarshal` into a generic value: parse one JSON value and require
only whitespace after it. -/
def goUnmarshal (s : String) : Except String Json :=
  match parseVal (s.data.length + 1) s.data with
  | .error e => .error e
  | .ok (v, rest) =>
    if skipWs rest = [] then .ok v
    else .error "invalid character after top-level value"

/-- `json.Marshal` of the parsed schema tree. -/
def goMarshal (t : Json) : String :=
  String.mk (printJ (sortJson t))

/-- `NewCodec` (codec.go lines 220-249), parametrized by the recursive codec
builder (`st.buildCodec` is a pure function of the parsed schema tree, and
its internals are irrelevant to canonicalization): unmarshal the schema text,
remarshal it into the compressed form, build the codec, and store the
compressed schema, which `Schema()` (codec.go lines 279-281) returns. -/
def NewCodecModel (build : Json → Except String κ) (someJSONSchema : String) :
    Except String (κ × String) :=
  match goUnmarshal someJSONSchema with
  | .error e => .error ("cannot parse schema: cannot unmarshal JSON: " ++ e)
  | .ok schema =>
    let compressedSchema := goMarshal schema
    match build schema with
    | .error e => .error e
    | .ok c => .ok (c, compressedSchema)

/-! ## Concrete instances used by counterexamples and witnesses -/

/-- A model of the member table of the union `["null","int"]`: member 0 is
the null codec (name `null`, JSON type name `null`), member 1 the int codec
(name `int32`, JSON type name `int`, JSON decoder `intJSONDecoder`). -/
def nullIntUnionMembers : List UnionMember :=
  [ { nmn := "null", tn := "null", ef := fun _ => ([], none),
      jdf := fun j =>
        match j with
        | .null => .ok .dnull
        | _ => .error "nil: expected null" },
    { nmn := "int32", tn := "int",
      ef := fun d =>
        match d with
        | .dint32 i => (intEncoder i, none)
        | _ => ([], some "int: type mismatch"),
      jdf := intJSONDecoder } ]

/-- A concrete element encoder accepting 32-bit integer datums. -/
def intVefModel : BinEncoder := fun d =>
  match d with
  | .dint32 i => (intEncoder i, none)
  | _ => ([], some "expected: int32")

/-- The 25-element integer array of the spec's concrete scenario. -/
def list25 : List Datum := (List.range 25).map (fun i => Datum.dint32 (i : Int))

/-- A one-byte value decoder used to exercise the container decoders on
concrete streams: it reads a single byte `b` and returns `int32 b`. -/
def byteVdf : BinDecoder := fun input =>
  match input with
  | [] => .error "model: empty input"
  | b :: rest => .ok (.dint32 (b : Int), rest)

/-- Concrete array entries for the container-framing witness. -/
def wXs : List (List Nat × Datum) := [([5], .dint32 5), ([6], .dint32 6)]

/-- Concrete map entries for the container-framing witness: both entries use
the key byte `107` (the letter k), so the second overwrites the first. -/
def wKvs : List (List Nat × List Nat × Datum) :=
  [([107], [5], .dint32 5), ([107], [6], .dint32 6)]

/-! ## Canonical JSON trees

`goUnmarshal` returns trees whose objects are key-sorted with no duplicate
keys (the model of a Go map); `jsonWF` captures exactly the trees the parser
can return, the trees on which parse is a left inverse of print. -/

/-- Keys strictly ascend (sorted with no duplicates). -/
def keysAscending : List (String × Json) → Bool
  | [] => true
  | a :: t =>
    (match t with
     | [] => true
     | b :: _ => decide (a.1 < b.1)) && keysAscending t

mutual

/-- The invariant of parsed generic JSON values: every object is key-sorted
without duplicates, and every number is an integer token. -/
def jsonWF : Json → Bool
  | .null => true
  | .bool _ => true
  | .num (.int _) => true
  | .num (.nonInt _) => false
  | .str _ => true
  | .arr xs => arrWF xs
  | .obj kvs => keysAscending kvs && kvsWF kvs

def kvsWF : List (String × Json) → Bool
  | [] => true
  | kv :: t => jsonWF kv.2 && kvsWF t

def arrWF : List Json → Bool
  | [] => true
  | x :: t => jsonWF x && arrWF t

end

mutual

/-- Node count of a JSON tree, a lower bound for the parser fuel it needs. -/
def jsize : Json → Nat
  | .arr xs => 1 + jsizeArr xs
  | .obj kvs => 1 + jsizeKvs kvs
  | _ => 1

def jsizeKvs : List (String × Json) → Nat
  | [] => 0
  | kv :: t => 1 + jsize kv.2 + jsizeKvs t

def jsizeArr : List Json → Nat
  | [] => 0
  | x :: t => 1 + jsize x + jsizeArr t

end

/-- The input may directly follow a printed numeric token: it does not start
with a digit or a fraction/exponent mark, so the number parser stops exactly
at the token boundary. -/
def numBd : List Char → Bool
  | [] => true
  | c :: _ => !(c.isDigit || c == '.' || c == 'e' || c == 'E')

/-! ## Theorems -/

theorem varintEncodeAux_irrel :
    ∀ (fuel fuel' n : Nat), n ≤ fuel → n ≤ fuel' →
      varintEncodeAux fuel n = varintEncodeAux fuel' n := by
  intro fuel
  induction fuel with
  | zero =>
    intro fuel' n h h'
    have hn : n = 0 := by omega
    subst hn
    cases fuel' with
    | zero => rfl
    | succ f => simp [varintEncodeAux]
  | succ f ih =>
    intro fuel' n h h'
    cases fuel' with
    | zero =>
      have hn : n = 0 := by omega
      subst hn
      simp [varintEncodeAux]
    | succ f' =>
      simp only [varintEncodeAux]
      by_cases hn : n < 128
      · simp [hn]
      · simp only [if_neg hn]
        rw [ih f' (n / 128) (by omega) (by omega)]

theorem varintEncode_eq (n : Nat) :
    varintEncode n =
      if n < 128 then [n] else (n % 128 + 128) :: varintEncode (n / 128) := by
  unfold varintEncode
  by_cases hn : n < 128
  · cases n with
    | zero => simp [varintEncodeAux]
    | succ m => simp [varintEncodeAux, hn]
  · obtain ⟨m, rfl⟩ : ∃ m, n = m + 1 := ⟨n - 1, by omega⟩
    simp only [varintEncodeAux, if_neg hn]
    rw [varintEncodeAux_irrel m ((m + 1) / 128) ((m + 1) / 128) (by omega) (by omega)]

theorem chunks10Aux_irrel :
    ∀ (fuel fuel' : Nat) (l : List α), l.length ≤ fuel → l.length ≤ fuel' →
      chunks10Aux fuel l = chunks10Aux fuel' l := by
  intro fuel
  induction fuel with
  | zero =>
    intro fuel' l h h'
    cases l with
    | nil => cases fuel' <;> rfl
    | cons x rest => simp at h
  | succ f ih =>
    intro fuel' l h h'
    cases l with
    | nil => cases fuel' <;> rfl
    | cons x rest =>
      cases fuel' with
      | zero => simp at h'
      | succ f' =>
        simp only [List.length_cons] at h h'
        simp only [chunks10Aux]
        rw [ih f' ((x :: rest).drop 10)
          (by simp only [List.length_drop, List.length_cons]; omega)
          (by simp only [List.length_drop, List.length_cons]; omega)]

theorem chunks10_cons (x : α) (rest : List α) :
    chunks10 (x :: rest) = (x :: rest).take 10 :: chunks10 ((x :: rest).drop 10) := by
  unfold chunks10
  simp only [List.length_cons, chunks10Aux]
  rw [chunks10Aux_irrel rest.length ((x :: rest).drop 10).length ((x :: rest).drop 10)
    (by simp only [List.length_drop, List.length_cons]; omega) (by exact le_rfl)]

theorem arrayEfLoopAux_irrel (vef : BinEncoder) (fn : String) :
    ∀ (fuel fuel' : Nat) (l : List Datum), l.length ≤ fuel → l.length ≤ fuel' →
      arrayEfLoopAux vef fn fuel l = arrayEfLoopAux vef fn fuel' l := by
  intro fuel
  induction fuel with
  | zero =>
    intro fuel' l h h'
    cases l with
    | nil => cases fuel' <;> rfl
    | cons x rest => simp at h
  | succ f ih =>
    intro fuel' l h h'
    cases l with
    | nil => cases fuel' <;> rfl
    | cons x rest =>
      cases fuel' with
      | zero => simp at h'
      | succ f' =>
        simp only [List.length_cons] at h h'
        simp only [arrayEfLoopAux]
        cases hgo : arrayEncodeItems vef fn ((x :: rest).take 10) with
        | mk bs e =>
          cases e with
          | some err => rfl
          | none =>
            dsimp only
            rw [ih f' ((x :: rest).drop 10)
              (by simp only [List.length_drop, List.length_cons]; omega)
              (by simp only [List.length_drop, List.length_cons]; omega)]

theorem arrayEfLoop_cons (vef : BinEncoder) (fn : String) (x : Datum)
    (rest : List Datum) :
    arrayEfLoop vef fn (x :: rest) =
      match arrayEncodeItems vef fn ((x :: rest).take 10) with
      | (bs, some e) => (longEncoder (((x :: rest).take 10).length : Int) ++ bs, some e)
      | (bs, none) =>
        let r := arrayEfLoop vef fn ((x :: rest).drop 10)
        (longEncoder (((x :: rest).take 10).length : Int) ++ bs ++ r.1, r.2) := by
  unfold arrayEfLoop
  simp only [List.length_cons, arrayEfLoopAux]
  cases hgo : arrayEncodeItems vef fn ((x :: rest).take 10) with
  | mk bs e =>
    cases e with
    | some err => rfl
    | none =>
      dsimp only
      rw [arrayEfLoopAux_irrel vef fn rest.length ((x :: rest).drop 10).length
        ((x :: rest).drop 10) (by simp only [List.length_drop, List.length_cons]; omega)
        (by exact le_rfl)]

theorem unzigzag_zigzag (n : Int) : unzigzag (zigzag n) = n := by
  unfold zigzag unzigzag
  by_cases h : 0 ≤ n
  · simp only [h, if_true]
    omega
  · simp only [h, if_false]
    omega

theorem varintEncode_length {n : Nat} {k : Nat} (hk : 0 < k) (h : n < 128 ^ k) :
    (varintEncode n).length ≤ k := by
  induction k generalizing n with
  | zero => omega
  | succ k ih =>
    rw [varintEncode_eq]
    by_cases hn : n < 128
    · simp [hn]
    · rw [if_neg hn]
      rcases Nat.eq_zero_or_pos k with hk0 | hkpos
      · subst hk0
        simp [pow_succ, pow_zero] at h
        omega
      · have hlt : n / 128 < 128 ^ k := by
          apply Nat.div_lt_of_lt_mul
          rw [pow_succ, Nat.mul_comm] at h
          exact h
        have := ih hkpos hlt
        simpa using this

theorem varintDecode_varintEncode (n : Nat) (rest : List Nat) (k : Nat)
    (h : (varintEncode n).length ≤ k) :
    varintDecode k (varintEncode n ++ rest) = .ok (n, rest) := by
  induction n using Nat.strong_induction_on generalizing k rest with
  | _ n ih =>
    by_cases hn : n < 128
    · rw [varintEncode_eq, if_pos hn] at h ⊢
      rcases k with _ | k
      · simp at h
      · simp [varintDecode, hn]
    · rw [varintEncode_eq, if_neg hn] at h ⊢
      rcases k with _ | k
      · simp at h
      · have hrec := ih (n / 128) (by omega) rest k (by simpa using h)
        simp only [List.cons_append, varintDecode, List.append_eq]
        have hcont : ¬ (n % 128 + 128 < 128) := by omega
        rw [if_neg hcont, hrec]
        simp only [Except.ok.injEq, Prod.mk.injEq, and_true]
        omega

theorem zigzag_lt {n : Int} (h1 : -(2 ^ 63) ≤ n) (h2 : n < 2 ^ 63) :
    zigzag n < 128 ^ 10 := by
  unfold zigzag
  by_cases h : 0 ≤ n
  · simp only [h, if_true]
    omega
  · simp only [h, if_false]
    omega

theorem zigzag_lt32 {n : Int} (h1 : -(2 ^ 31) ≤ n) (h2 : n < 2 ^ 31) :
    zigzag n < 128 ^ 5 := by
  unfold zigzag
  by_cases h : 0 ≤ n
  · simp only [h, if_true]
    omega
  · simp only [h, if_false]
    omega

/-- Round trip for the modelled `long` primitive: decoding an encoded 64-bit
integer returns the integer and the unread suffix. -/
theorem longDecoder_longEncoder (n : Int) (rest : List Nat)
    (h1 : -(2 ^ 63) ≤ n) (h2 : n < 2 ^ 63) :
    longDecoder (longEncoder n ++ rest) = .ok (n, rest) := by
  unfold longDecoder longEncoder
  rw [varintDecode_varintEncode (zigzag n) rest 10
    (varintEncode_length (by norm_num) (zigzag_lt h1 h2))]
  simp [Except.map, unzigzag_zigzag]

/-- Round trip for the modelled `int` primitive. -/
theorem intDecoder_intEncoder (n : Int) (rest : List Nat)
    (h1 : -(2 ^ 31) ≤ n) (h2 : n < 2 ^ 31) :
    intDecoder (intEncoder n ++ rest) = .ok (n, rest) := by
  unfold intDecoder intEncoder
  rw [varintDecode_varintEncode (zigzag n) rest 5
    (varintEncode_length (by norm_num) (zigzag_lt32 h1 h2))]
  simp [Except.map, unzigzag_zigzag]

/-- Round trip for the modelled `string` primitive. -/
theorem stringDecoder_stringEncoder (s : List Nat) (rest : List Nat)
    (h : (s.length : Int) < 2 ^ 63) :
    stringDecoder (stringEncoder s ++ rest) = .ok (s, rest) := by
  unfold stringDecoder stringEncoder
  rw [List.append_assoc, longDecoder_longEncoder s.length (s ++ rest) (by omega) h]
  have hlen : ¬ ((s.length : Int) < 0) := by omega
  simp only [hlen, if_false, Int.toNat_natCast]
  have : ¬ ((s ++ rest).length < s.length) := by simp
  simp [this]

/-- C1: for every union codec and every datum, the union binary encoder looks
the derived discriminator name up in the union's encoder table; on a miss it
fails with the error `union (union): datum ought match schema: expected:
{member names}; received: {name}` and writes no bytes; on a hit it first
writes the member's zig-zag index as an `int` and then the member encoder's
output for the datum (propagating a member error wrapped with the friendly
name). -/
theorem unionEf_spec (members : List UnionMember) (d : Datum) :
    unionEf members d =
      match goLookup (nameToUnionEncoderTable members) (datumUnionName d) with
      | none =>
        ([], some ("union (union): datum ought match schema: expected: " ++
          String.intercalate ", " (members.map (fun c => c.nmn)) ++
          "; received: " ++ datumUnionName d))
      | some ue =>
        (intEncoder ue.index ++ (ue.ef d).1,
          (ue.ef d).2.map (fun e => "union (union): " ++ e)) := by
  cases hg : goLookup (nameToUnionEncoderTable members) (datumUnionName d) with
  | none =>
    simp only [unionEf, newEncoderError, unionInvalidType, unionFriendlyName,
      allowedNames, hg]
    simp [← String.append_assoc]
  | some ue =>
    simp only [unionEf, newEncoderError, unionInvalidType, unionFriendlyName,
      allowedNames, hg]
    cases hef : ue.ef d with
    | mk bs e =>
      cases e <;> simp [← String.append_assoc]

/-- C2 (counterexample): decoding the two-entry JSON object
`\x7b"int":1,"null":null\x7d` against the union `["null","int"]` does not
fail — the decoder takes one entry of the object and decodes it — refuting
the claim that every object with two or more entries fails. -/
theorem unionJdf_two_entry_object_not_fail :
    unionJdf nullIntUnionMembers
      (.obj [("int", .num (.int 1)), ("null", .null)]) = .ok (.dint32 1) := by
  rfl

/-- C2 (amended): the union JSON decoder decodes `null` with the member
decoder registered under `"null"`; for an object with at least one entry it
takes one entry (the first iterated — Go map iteration order is not
specified, the model fixes the association order) as discriminator and
value, regardless of the number of entries, failing with `unknown union
type` when no member has that JSON type name; an empty object fails with
`unknown union type` for the empty name; every non-null, non-object value
fails with `unsupported union value`. -/
theorem unionJdf_spec (members : List UnionMember) (j : Json) :
    unionJdf members j =
      match j with
      | .null =>
        (match goLookup (nameToJSONDecoderTable members) "null" with
         | none => .error "union (union): unknown union type null"
         | some f => f .null)
      | .obj [] =>
        (match goLookup (nameToJSONDecoderTable members) "" with
         | none => .error "union (union): unknown union type "
         | some f => f (.obj []))
      | .obj ((k, v) :: _) =>
        (match goLookup (nameToJSONDecoderTable members) k with
         | none => .error ("union (union): unknown union type " ++ k)
         | some f => f v)
      | _ => .error "union (union): unsupported union value" := by
  unfold unionJdf newDecoderError unionFriendlyName
  cases j with
  | obj kvs =>
    cases kvs with
    | nil => rfl
    | cons kv t =>
      cases kv with
      | mk k v =>
        cases hg : goLookup (nameToJSONDecoderTable members) k with
        | none => simp [hg, ← String.append_assoc]
        | some f => simp [hg]
  | _ => rfl

/-- C3 (counterexample): the JSON `int` decoder, applied to the integer token
`2147483648` (which is outside the 32-bit range `[-2^31, 2^31)` but inside
the 64-bit range), does not fail: it returns the value truncated to 32 bits,
`-2147483648` — refuting the claim that out-of-range integers binding to
`int` fail rather than being truncated. -/
theorem intJSONDecoder_truncates_out_of_range :
    intJSONDecoder (.num (.int 2147483648)) = .ok (.dint32 (-2147483648)) := by
  rfl

/-- C3 (amended): the JSON decoders for `int` and `long` parse the numeric
token at full precision and fail on every non-integer token; `long`
additionally fails on every integer outside `[-2^63, 2^63)` and otherwise
returns the value exactly; `int` fails on integers outside `[-2^63, 2^63)`
but returns integers inside that range truncated to 32 bits (two's
complement), which is the identity only on `[-2^31, 2^31)`. -/
theorem numericJSONDecoder_spec (j : Json) :
    (intJSONDecoder j =
      match j with
      | .num (.int i) =>
        if -9223372036854775808 ≤ i ∧ i < 9223372036854775808 then
          .ok (.dint32 (wrap32 i))
        else .error "int: expected int64"
      | .num (.nonInt _) => .error "int: expected int64"
      | _ => .error "int: expected json.Number") ∧
    (longJSONDecoder j =
      match j with
      | .num (.int i) =>
        if -9223372036854775808 ≤ i ∧ i < 9223372036854775808 then .ok (.dint64 i)
        else .error "value out of range"
      | .num (.nonInt _) => .error "invalid syntax"
      | _ => .error "long: expected json.Number") ∧
    (∀ i : Int, -2147483648 ≤ i → i < 2147483648 → wrap32 i = i) := by
  refine ⟨?_, ?_, ?_⟩
  · unfold intJSONDecoder jsonNumberInt64 newDecoderError
    cases j with
    | num n =>
      cases n with
      | int i =>
        by_cases h : -9223372036854775808 ≤ i ∧ i < 9223372036854775808 <;>
          simp [h]
      | nonInt tok => rfl
    | _ => rfl
  · unfold longJSONDecoder jsonNumberInt64 newDecoderError
    cases j with
    | num n =>
      cases n with
      | int i =>
        by_cases h : -9223372036854775808 ≤ i ∧ i < 9223372036854775808 <;>
          simp [h]
      | nonInt tok => rfl
    | _ => rfl
  · intro i h1 h2
    unfold wrap32
    omega

/-- C3 (witness for the amended theorem): the token `5` decodes to `int32 5`,
and `wrap32` is the identity there. -/
theorem numericJSONDecoder_spec_witness :
    intJSONDecoder (.num (.int 5)) = .ok (.dint32 5) ∧ wrap32 5 = 5 := by
  constructor
  · rw [(numericJSONDecoder_spec (.num (.int 5))).1]
    rfl
  · exact (numericJSONDecoder_spec (.num (.int 5))).2.2 5 (by decide) (by decide)

theorem recordEfLoop_eq_spec (codecs : List BinEncoder) (fn : String) :
    ∀ (fs : List FieldD) (idx : Nat),
      recordEfLoop codecs fn idx fs = recordFieldsEncodeSpec fn (codecs.drop idx) fs := by
  intro fs
  induction fs with
  | nil => intro idx; simp [recordEfLoop, recordFieldsEncodeSpec]
  | cons f fs ih =>
    intro idx
    have hhead : codecs[idx]? = (codecs.drop idx).head? := by
      rw [List.head?_eq_getElem?, List.getElem?_drop]
      simp
    simp only [recordEfLoop, recordFieldsEncodeSpec]
    cases hsel : recordSelectValue fn f with
    | error e => rfl
    | ok v =>
      dsimp only
      cases hd : codecs.drop idx with
      | nil =>
        have h1 : codecs[idx]? = none := by rw [hhead, hd]; rfl
        rw [h1]
      | cons c cs' =>
        have h1 : codecs[idx]? = some c := by rw [hhead, hd]; rfl
        have h2 : codecs.drop (idx + 1) = cs' := by
          rw [← List.tail_drop, hd]
          rfl
        rw [h1]
        dsimp only
        cases hcv : c v with
        | mk bs e =>
          cases e with
          | some err => rfl
          | none =>
            dsimp only
            rw [ih (idx + 1), h2]

/-- C4: for every record codec and every record value with the matching type
name, the record binary encoder processes the fields in declared order; for
each field it encodes the caller-supplied datum when present, else the
field's default when the field has one, else fails with the
`field has no data and no default set` error; the per-field encodings are
concatenated with no framing bytes between them
(`recordFieldsEncodeSpec` states exactly this processing order). -/
theorem recordEf_spec (fieldCodecs : List BinEncoder) (templateName : String)
    (fields : List FieldD) :
    recordEf fieldCodecs templateName (.drecord (.mk templateName fields)) =
      recordFieldsEncodeSpec (recordFriendly templateName) fieldCodecs fields := by
  unfold recordEf
  simp only [RecordD.name, RecordD.fields, if_pos rfl]
  rw [recordEfLoop_eq_spec]
  simp

theorem recordJefLoop_eq_spec (codecs : List JsonValEncoder) (fn : String) :
    ∀ (fs : List FieldD) (idx : Nat),
      recordJefLoop codecs fn idx fs = recordFieldsToJsonSpec fn (codecs.drop idx) fs := by
  intro fs
  induction fs with
  | nil => intro idx; simp [recordJefLoop, recordFieldsToJsonSpec]
  | cons f fs ih =>
    intro idx
    have hhead : codecs[idx]? = (codecs.drop idx).head? := by
      rw [List.head?_eq_getElem?, List.getElem?_drop]
      simp
    simp only [recordJefLoop, recordFieldsToJsonSpec]
    cases hsel : recordSelectValue fn f with
    | error e => rfl
    | ok v =>
      dsimp only
      cases hd : codecs.drop idx with
      | nil =>
        have h1 : codecs[idx]? = none := by rw [hhead, hd]; rfl
        rw [h1]
      | cons c cs' =>
        have h1 : codecs[idx]? = some c := by rw [hhead, hd]; rfl
        have h2 : codecs.drop (idx + 1) = cs' := by
          rw [← List.tail_drop, hd]
          rfl
        rw [h1]
        dsimp only
        cases hcv : c v with
        | error e => rfl
        | ok jv =>
          dsimp only
          cases hnm : newNameShort f.name with
          | error e => rfl
          | ok short =>
            dsimp only
            rw [ih (idx + 1), h2]

theorem recordFieldsToJsonSpec_keys (fn : String) :
    ∀ (fs : List FieldD) (codecs : List JsonValEncoder) (kvs : List (String × Json)),
      recordFieldsToJsonSpec fn codecs fs = .ok kvs →
      kvs.map Prod.fst = fs.map (fun f => goShortname f.name) := by
  intro fs
  induction fs with
  | nil =>
    intro codecs kvs h
    simp only [recordFieldsToJsonSpec, Except.ok.injEq] at h
    subst h
    rfl
  | cons f fs ih =>
    intro codecs kvs h
    simp only [recordFieldsToJsonSpec] at h
    cases hsel : recordSelectValue fn f with
    | error e => rw [hsel] at h; simp at h
    | ok v =>
      rw [hsel] at h
      dsimp only at h
      cases codecs with
      | nil => simp at h
      | cons c cs =>
        dsimp only at h
        cases hcv : c v with
        | error e => rw [hcv] at h; simp at h
        | ok jv =>
          rw [hcv] at h
          dsimp only at h
          cases hnm : newNameShort f.name with
          | error e => rw [hnm] at h; simp at h
          | ok short =>
            rw [hnm] at h
            dsimp only at h
            cases hrec : recordFieldsToJsonSpec fn cs fs with
            | error e => rw [hrec] at h; simp at h
            | ok rest =>
              rw [hrec] at h
              dsimp only at h
              simp only [Except.ok.injEq] at h
              subst h
              have hshort : short = goShortname f.name := by
                unfold newNameShort at hnm
                by_cases hv : validAvroName (goShortname f.name)
                · rw [if_pos hv] at hnm
                  cases hnm
                  rfl
                · rw [if_neg hv] at hnm
                  cases hnm
              simp only [List.map_cons, hshort]
              rw [ih cs rest hrec]

/-- C5: for every record codec and every encodable record value with the
matching type name, the record JSON encoder produces the
`OrderedMap.MarshalJSON` serialization of the ordered key/value list built in
schema field order — the key sequence equals the declared field sequence
(the short names of the field names, in order), never an arbitrary hash
order — with each value the field codec's Avro-JSON encoding of the field's
datum (or default). -/
theorem recordJef_spec (fieldCodecs : List JsonValEncoder) (templateName : String)
    (fields : List FieldD) :
    recordJef fieldCodecs templateName (.drecord (.mk templateName fields)) =
      (recordFieldsToJsonSpec (recordFriendly templateName) fieldCodecs fields).map
        marshalOrderedMap ∧
    (∀ kvs, recordFieldsToJsonSpec (recordFriendly templateName) fieldCodecs fields = .ok kvs →
      kvs.map Prod.fst = fields.map (fun f => goShortname f.name)) := by
  constructor
  · unfold recordJef
    simp only [RecordD.name, RecordD.fields, if_pos rfl]
    rw [recordJefLoop_eq_spec]
    simp only [List.drop_zero]
    cases recordFieldsToJsonSpec (recordFriendly templateName) fieldCodecs fields <;>
      simp [Except.map]
  · intro kvs h
    exact recordFieldsToJsonSpec_keys _ _ _ _ h

theorem arrayEncodeItems_ok (vef : BinEncoder) (fn : String) :
    ∀ (items : List Datum), (∀ x ∈ items, (vef x).2 = none) →
      arrayEncodeItems vef fn items =
        ((items.map (fun x => (vef x).1)).flatten, none) := by
  intro items
  induction items with
  | nil => intro _; rfl
  | cons x xs ih =>
    intro hok
    have hx : (vef x).2 = none := hok x (List.mem_cons_self x xs)
    simp only [arrayEncodeItems]
    cases hvx : vef x with
    | mk bs e =>
      cases e with
      | some err => rw [hvx] at hx; simp at hx
      | none =>
        dsimp only
        rw [ih (fun y hy => hok y (List.mem_cons_of_mem x hy))]
        simp [hvx]

theorem arrayEfLoop_blocks (vef : BinEncoder) (fn : String) :
    ∀ (n : Nat) (xs : List Datum), xs.length ≤ n → (∀ x ∈ xs, (vef x).2 = none) →
      arrayEfLoop vef fn xs =
        (((chunks10 xs).map (fun ch => longEncoder (ch.length : Int) ++
          (ch.map (fun x => (vef x).1)).flatten)).flatten, none) := by
  intro n
  induction n with
  | zero =>
    intro xs h hok
    have hxs : xs = [] := by
      cases xs with
      | nil => rfl
      | cons a t => simp at h
    subst hxs
    rfl
  | succ n ih =>
    intro xs h hok
    cases xs with
    | nil => rfl
    | cons x rest =>
      rw [arrayEfLoop_cons, chunks10_cons,
        arrayEncodeItems_ok vef fn _ (fun y hy => hok y (List.take_subset _ _ hy))]
      dsimp only
      rw [ih ((x :: rest).drop 10)
        (by simp only [List.length_drop, List.length_cons] at h ⊢; omega)
        (fun y hy => hok y (List.drop_subset _ _ hy))]
      simp [List.append_assoc]

theorem chunks10_facts :
    ∀ (n : Nat) (xs : List α), xs.length ≤ n →
      (chunks10 xs).length = (xs.length + 9) / 10 ∧
      (∀ ch ∈ chunks10 xs, 0 < ch.length ∧ ch.length ≤ 10) ∧
      (∀ ch ∈ (chunks10 xs).dropLast, ch.length = 10) ∧
      (xs ≠ [] → ((chunks10 xs).getLast?).map List.length =
        some (if xs.length % 10 = 0 then 10 else xs.length % 10)) := by
  intro n
  induction n with
  | zero =>
    intro xs h
    have hxs : xs = [] := by
      cases xs with
      | nil => rfl
      | cons a t => simp at h
    subst hxs
    refine ⟨by simp [chunks10, chunks10Aux], by simp [chunks10, chunks10Aux],
      by simp [chunks10, chunks10Aux], by simp⟩
  | succ n ih =>
    intro xs h
    cases xs with
    | nil =>
      exact ⟨by simp [chunks10, chunks10Aux], by simp [chunks10, chunks10Aux],
        by simp [chunks10, chunks10Aux], by simp⟩
    | cons x rest =>
      rw [chunks10_cons]
      by_cases hlen : rest.length + 1 ≤ 10
      · have hdrop : (x :: rest).drop 10 = [] :=
          List.drop_eq_nil_of_le (by simp only [List.length_cons]; omega)
        have htake : ((x :: rest).take 10).length = rest.length + 1 := by
          simp only [List.length_take, List.length_cons]
          omega
        rw [hdrop]
        have hnil : chunks10 ([] : List α) = [] := rfl
        rw [hnil]
        refine ⟨?_, ?_, ?_, ?_⟩
        · simp only [List.length_cons, List.length_nil]
          omega
        · intro ch hch
          simp only [List.mem_singleton] at hch
          subst hch
          rw [htake]
          omega
        · intro ch hch
          simp at hch
        · intro _
          show some ((x :: rest).take 10).length =
            some (if (x :: rest).length % 10 = 0 then 10 else (x :: rest).length % 10)
          rw [htake]
          simp only [List.length_cons, Option.some.injEq]
          by_cases hm : (rest.length + 1) % 10 = 0
          · rw [if_pos hm]
            omega
          · rw [if_neg hm]
            omega
      · have hdroplen : ((x :: rest).drop 10).length = rest.length + 1 - 10 := by
          simp
        obtain ⟨y, t, hyt⟩ : ∃ y t, (x :: rest).drop 10 = y :: t := by
          cases hd : (x :: rest).drop 10 with
          | nil => rw [hd] at hdroplen; simp at hdroplen; omega
          | cons y t => exact ⟨y, t, rfl⟩
        have hdsub : ((x :: rest).drop 10).length ≤ n := by
          rw [hdroplen]
          simp only [List.length_cons] at h
          omega
        obtain ⟨ihlen, ihsz, ihdl, ihlast⟩ := ih ((x :: rest).drop 10) hdsub
        have htake : ((x :: rest).take 10).length = 10 := by
          simp only [List.length_take, List.length_cons]
          omega
        have hchne : chunks10 ((x :: rest).drop 10) ≠ [] := by
          rw [hyt, chunks10_cons]
          simp
        refine ⟨?_, ?_, ?_, ?_⟩
        · simp only [List.length_cons, ihlen, hdroplen]
          omega
        · intro ch hch
          rcases List.mem_cons.mp hch with hch | hch
          · subst hch
            rw [htake]
            omega
          · exact ihsz ch hch
        · intro ch hch
          obtain ⟨z, u, hzu⟩ : ∃ z u, chunks10 ((x :: rest).drop 10) = z :: u := by
            cases hc : chunks10 ((x :: rest).drop 10) with
            | nil => exact absurd hc hchne
            | cons z u => exact ⟨z, u, rfl⟩
          rw [hzu] at hch
          simp only [List.dropLast_cons₂, List.mem_cons] at hch
          rcases hch with hch | hch
          · subst hch
            exact htake
          · apply ihdl
            rw [hzu]
            exact hch
        · intro _
          obtain ⟨z, u, hzu⟩ : ∃ z u, chunks10 ((x :: rest).drop 10) = z :: u := by
            cases hc : chunks10 ((x :: rest).drop 10) with
            | nil => exact absurd hc hchne
            | cons z u => exact ⟨z, u, rfl⟩
          rw [hzu, List.getLast?_cons_cons, ← hzu]
          have hne : (x :: rest).drop 10 ≠ [] := by rw [hyt]; simp
          rw [ihlast hne, hdroplen]
          have hm1 : (rest.length + 1 - 10) % 10 = (rest.length + 1) % 10 := by omega
          rw [hm1]
          simp only [List.length_cons]

/-- C6: for every array codec and every input sequence whose elements all
encode successfully, binary Encode emits one block per 10-element chunk —
`ceil(L/10)` blocks, each a positive `long` count (at most 10, equal to 10
for all but possibly the last block, whose count is `L mod 10` when that is
nonzero) followed by the encoded elements — then the terminating `long` `0`;
the empty sequence emits exactly the single byte `0x00`. -/
theorem arrayEf_blocks (vef : BinEncoder) (xs : List Datum)
    (hok : ∀ x ∈ xs, (vef x).2 = none) :
    arrayEf vef (.darray xs) = (arrayEncodeSpec vef xs, none) ∧
    (chunks10 xs).length = (xs.length + 9) / 10 ∧
    (∀ ch ∈ chunks10 xs, 0 < ch.length ∧ ch.length ≤ 10) ∧
    (∀ ch ∈ (chunks10 xs).dropLast, ch.length = 10) ∧
    (xs ≠ [] → ((chunks10 xs).getLast?).map List.length =
      some (if xs.length % 10 = 0 then 10 else xs.length % 10)) ∧
    longEncoder 0 = [0] ∧
    (xs = [] → arrayEf vef (.darray xs) = ([0], none)) := by
  have hloop := arrayEfLoop_blocks vef arrayFriendlyName xs.length xs le_rfl hok
  obtain ⟨h1, h2, h3, h4⟩ := chunks10_facts xs.length xs le_rfl
  refine ⟨?_, h1, h2, h3, h4, rfl, ?_⟩
  · simp only [arrayEf, hloop, arrayEncodeSpec]
  · intro hxs
    subst hxs
    rfl

/-- C6 (witness): the 25-element integer array encodes as its block
serialization with success, and the chunk structure has exactly three
blocks. -/
theorem arrayEf_blocks_witness :
    arrayEf intVefModel (.darray list25) = (arrayEncodeSpec intVefModel list25, none) ∧
    (chunks10 list25).length = 3 := by
  have h := arrayEf_blocks intVefModel list25 (by decide)
  refine ⟨h.1, ?_⟩
  rw [h.2.1]
  rfl

theorem findIdx_map_nodup [DecidableEq β] (f : α → β) :
    ∀ (l : List α) (i : Nat) (hi : i < l.length) (start : Nat),
      (l.map f).Nodup →
      List.findIdx? (fun y => decide (f y = f (l.get ⟨i, hi⟩))) l start =
        some (start + i) := by
  intro l
  induction l with
  | nil => intro i hi; simp at hi
  | cons a t ih =>
    intro i hi start hnd
    rw [List.findIdx?_cons]
    cases i with
    | zero =>
      have hget : (a :: t).get ⟨0, hi⟩ = a := rfl
      simp [hget]
    | succ j =>
      have hj : j < t.length := by simpa using hi
      have hget : (a :: t).get ⟨j + 1, hi⟩ = t.get ⟨j, hj⟩ := rfl
      simp only [hget]
      have hne : ¬ (f a = f (t.get ⟨j, hj⟩)) := by
        simp only [List.map_cons, List.nodup_cons] at hnd
        intro he
        exact hnd.1 (he ▸ List.mem_map_of_mem f (List.get_mem t j hj))
      rw [if_neg (by simp only [decide_eq_true_eq]; exact hne)]
      rw [ih j hj (start + 1)
        (by simp only [List.map_cons, List.nodup_cons] at hnd; exact hnd.2)]
      congr 1
      omega

/-- C8: for every enum codec with distinct symbols, binary Encode of an enum
value whose symbol is `S[i]` writes exactly the zig-zag `long` encoding of
`i`, and binary Decode of a `long` `i` followed by anything returns the enum
value `(typeName, S[i])` when `0 ≤ i < len(S)` and fails with the
index-range error otherwise. -/
theorem enumCodec_spec (symbols : List String) (nmn other : String) (i : Nat)
    (rest : List Nat) (hnd : (symbols.map strBytes).Nodup)
    (hi : i < symbols.length) (hlen : (symbols.length : Int) < 2 ^ 63) :
    enumEf symbols nmn (.denum ⟨other, symbols.get ⟨i, hi⟩⟩) =
      (longEncoder (i : Int), none) ∧
    enumDf symbols nmn (longEncoder (i : Int) ++ rest) =
      .ok (.denum ⟨nmn, symbols.get ⟨i, hi⟩⟩, rest) ∧
    (∀ j : Int, -(2 ^ 63) ≤ j → j < 2 ^ 63 → (j < 0 ∨ (symbols.length : Int) ≤ j) →
      enumDf symbols nmn (longEncoder j ++ rest) =
        .error (newDecoderError (enumFriendly nmn)
          ("index must be between 0 and " ++ toString (symbols.length - 1)))) := by
  refine ⟨?_, ?_, ?_⟩
  · simp only [enumEf, enumFriendly]
    dsimp only
    rw [show (List.findIdx? (fun symbol => decide (strBytes symbol =
        strBytes (symbols.get ⟨i, hi⟩))) symbols) = some (0 + i) from
      findIdx_map_nodup strBytes symbols i hi 0 hnd]
    simp
  · simp only [enumDf, enumFriendly]
    rw [longDecoder_longEncoder (i : Int) rest (by omega) (by omega)]
    dsimp only
    rw [dif_pos ⟨by omega, by exact_mod_cast hi⟩]
    simp [Int.toNat_natCast]
  · intro j h1 h2 h3
    simp only [enumDf, enumFriendly, newDecoderError]
    rw [longDecoder_longEncoder j rest h1 h2]
    dsimp only
    rw [dif_neg (by intro hc; rcases h3 with h | h <;> omega)]

/-- C8 (witness): the enum `E` with symbols `A`,`B`,`C`: `Enum(E,"B")`
encodes to `0x02`, `0x02` decodes back to `Enum(E,"B")`, and the
out-of-range index `10` (bytes `0x14`) fails. -/
theorem enumCodec_spec_witness :
    enumEf ["A", "B", "C"] "E" (.denum ⟨"E", "B"⟩) = ([2], none) ∧
    enumDf ["A", "B", "C"] "E" ([2] ++ [9]) = .ok (.denum ⟨"E", "B"⟩, [9]) ∧
    enumDf ["A", "B", "C"] "E" ([20] ++ [9]) =
      .error "enum (E): index must be between 0 and 2" := by
  have h := enumCodec_spec ["A", "B", "C"] "E" "E" 1 [9] (by decide) (by decide)
    (by decide)
  exact ⟨h.1, h.2.1, h.2.2 10 (by decide) (by decide) (Or.inr (by decide))⟩

theorem goLookup_nil [DecidableEq κ] (k : κ) :
    goLookup ([] : List (κ × α)) k = none := rfl

theorem find?_map_replace [DecidableEq κ] (k : κ) (v : α) :
    ∀ (m : List (κ × α)), (m.find? (fun kv => decide (kv.1 = k))).isSome →
      List.find? (fun kv => decide (kv.1 = k))
        (m.map (fun kv => if kv.1 = k then (k, v) else kv)) = some (k, v) := by
  intro m
  induction m with
  | nil => intro hf; simp at hf
  | cons kv0 t ih =>
    intro hf
    rw [List.map_cons]
    by_cases hk : kv0.1 = k
    · rw [if_pos hk]
      rw [List.find?_cons_of_pos _ (by simp)]
    · rw [if_neg hk]
      rw [List.find?_cons_of_neg _ (by simp [hk])]
      apply ih
      rw [List.find?_cons_of_neg _ (by simp [hk])] at hf
      exact hf

theorem find?_map_replace_ne [DecidableEq κ] (k k' : κ) (v : α) (hne : k' ≠ k) :
    ∀ (m : List (κ × α)),
      List.find? (fun kv => decide (kv.1 = k'))
        (m.map (fun kv => if kv.1 = k then (k, v) else kv)) =
        List.find? (fun kv => decide (kv.1 = k')) m := by
  intro m
  induction m with
  | nil => rfl
  | cons kv0 t ih =>
    rw [List.map_cons]
    by_cases hk : kv0.1 = k
    · rw [if_pos hk]
      have h2 : ¬ (kv0.1 = k') := by rw [hk]; exact fun h => hne h.symm
      rw [List.find?_cons_of_neg _ (by simp; exact fun h => hne h.symm),
        List.find?_cons_of_neg _ (by simp [h2])]
      exact ih
    · rw [if_neg hk]
      by_cases hk' : kv0.1 = k'
      · rw [List.find?_cons_of_pos _ (by simp [hk']),
          List.find?_cons_of_pos _ (by simp [hk'])]
      · rw [List.find?_cons_of_neg _ (by simp [hk']),
          List.find?_cons_of_neg _ (by simp [hk'])]
        exact ih

theorem goLookup_goInsert_self [DecidableEq κ] (m : List (κ × α)) (k : κ) (v : α) :
    goLookup (goInsert m k v) k = some v := by
  unfold goInsert
  by_cases hf : (m.find? (fun kv => decide (kv.1 = k))).isSome
  · rw [if_pos hf]
    unfold goLookup
    rw [find?_map_replace k v m hf]
    rfl
  · rw [if_neg hf]
    unfold goLookup
    rw [List.find?_append]
    rw [Option.not_isSome_iff_eq_none.mp hf]
    rw [List.find?_cons_of_pos _ (by simp)]
    rfl

theorem goLookup_goInsert_ne [DecidableEq κ] (m : List (κ × α)) (k k' : κ) (v : α)
    (hne : k' ≠ k) :
    goLookup (goInsert m k v) k' = goLookup m k' := by
  unfold goInsert
  by_cases hf : (m.find? (fun kv => decide (kv.1 = k))).isSome
  · rw [if_pos hf]
    unfold goLookup
    rw [find?_map_replace_ne k k' v hne m]
  · rw [if_neg hf]
    unfold goLookup
    rw [List.find?_append]
    have hnil : List.find? (fun kv => decide (kv.1 = k')) [(k, v)] = none := by
      rw [List.find?_cons_of_neg _ (by simp; exact fun h => hne h.symm)]
      rfl
    rw [hnil]
    cases List.find? (fun kv => decide (kv.1 = k')) m <;> rfl

theorem goLookup_foldl_insert [DecidableEq κ] (key : τ → κ) (val : τ → β) :
    ∀ (kvs : List τ) (m : List (κ × β)) (k : κ),
      goLookup (kvs.foldl (fun acc e => goInsert acc (key e) (val e)) m) k =
        (match (kvs.filter (fun e => decide (key e = k))).getLast? with
         | some e => some (val e)
         | none => goLookup m k) := by
  intro kvs
  induction kvs with
  | nil => intro m k; rfl
  | cons e t ih =>
    intro m k
    rw [List.foldl_cons, ih]
    by_cases hk : key e = k
    · rw [List.filter_cons_of_pos (by simp [hk])]
      cases hft : (t.filter (fun x => decide (key x = k))).getLast? with
      | some x =>
        have hne : t.filter (fun x => decide (key x = k)) ≠ [] := by
          intro hnil
          rw [hnil] at hft
          simp at hft
        rw [List.getLast?_cons, hft]
        cases hc : t.filter (fun x => decide (key x = k)) with
        | nil => exact absurd hc hne
        | cons y u => rw [hc] at hft; simp [hft]
      | none =>
        have hnil : t.filter (fun x => decide (key x = k)) = [] := by
          cases hc : t.filter (fun x => decide (key x = k)) with
          | nil => rfl
          | cons y u => rw [hc] at hft; simp [List.getLast?_cons] at hft
        rw [hnil]
        subst hk
        simp [goLookup_goInsert_self]
    · rw [List.filter_cons_of_neg (by simp [hk])]
      cases hft : (t.filter (fun x => decide (key x = k))).getLast? with
      | some x => rfl
      | none => simp only [goLookup_goInsert_ne m (key e) k (val e) (fun h => hk h.symm)]

theorem decodeArrayEntries_spec (vdf : BinDecoder) (fn : String) :
    ∀ (xs : List (List Nat × Datum)) (acc : List Datum) (suffix : List Nat),
      (∀ e ∈ xs, ∀ r, vdf (e.1 ++ r) = .ok (e.2, r)) →
      decodeArrayEntries vdf fn xs.length acc
        ((xs.map (fun e => e.1)).flatten ++ suffix) =
        .ok (acc ++ xs.map (fun e => e.2), suffix) := by
  intro xs
  induction xs with
  | nil => intro acc suffix _; simp [decodeArrayEntries]
  | cons e t ih =>
    intro acc suffix hok
    simp only [List.map_cons, List.flatten_cons, List.length_cons, List.append_assoc]
    simp only [decodeArrayEntries]
    rw [hok e (List.mem_cons_self e t) ((t.map (fun x => x.1)).flatten ++ suffix)]
    dsimp only
    rw [ih (acc ++ [e.2]) suffix (fun y hy r => hok y (List.mem_cons_of_mem e hy) r)]
    simp

theorem decodeMapEntries_spec (vdf : BinDecoder) (fn : String) :
    ∀ (kvs : List (List Nat × List Nat × Datum)) (acc : List (List Nat × Datum))
      (suffix : List Nat),
      (∀ e ∈ kvs, ∀ r, vdf (e.2.1 ++ r) = .ok (e.2.2, r)) →
      (∀ e ∈ kvs, (e.1.length : Int) < 2 ^ 63) →
      decodeMapEntries vdf fn kvs.length acc
        ((kvs.map (fun e => stringEncoder e.1 ++ e.2.1)).flatten ++ suffix) =
        .ok (kvs.foldl (fun m e => goInsert m e.1 e.2.2) acc, suffix) := by
  intro kvs
  induction kvs with
  | nil => intro acc suffix _ _; simp [decodeMapEntries]
  | cons e t ih =>
    intro acc suffix hok hklen
    simp only [List.map_cons, List.flatten_cons, List.length_cons, List.append_assoc]
    simp only [decodeMapEntries]
    rw [stringDecoder_stringEncoder e.1 _ (hklen e (List.mem_cons_self e t))]
    dsimp only
    rw [hok e (List.mem_cons_self e t) ((t.map (fun x => stringEncoder x.1 ++ x.2.1)).flatten ++ suffix)]
    dsimp only
    rw [ih (goInsert acc e.1 e.2.2) suffix
      (fun y hy r => hok y (List.mem_cons_of_mem e hy) r)
      (fun y hy => hklen y (List.mem_cons_of_mem e hy))]
    rfl

theorem longDecoder_zero (t : List Nat) : longDecoder (0 :: t) = .ok (0, t) := by
  unfold longDecoder varintDecode
  simp [unzigzag, Except.map]

theorem longDecoder_one (t : List Nat) : longDecoder (2 :: t) = .ok (1, t) := by
  unfold longDecoder varintDecode
  simp [unzigzag, Except.map]

theorem longEncoder_one : longEncoder 1 = [2] := rfl

theorem arrayDfLoop_stop (vdf : BinDecoder) (fn : String) (fuel : Nat)
    (data : List Datum) (input : List Nat) :
    arrayDfLoop vdf fn fuel 0 data input = .ok (data, input) := by
  unfold arrayDfLoop
  rw [if_pos rfl]

theorem arrayDfLoop_step (vdf : BinDecoder) (fn : String) (fuel : Nat) (bc : Int)
    (data : List Datum) (input : List Nat) :
    arrayDfLoop vdf fn (fuel + 1) bc data input =
      if bc = 0 then .ok (data, input)
      else
        match (if bc < 0 then
            match longDecoder input with
            | .error e => .error (newDecoderError fn e)
            | .ok (_, rest) => .ok (-bc, rest)
          else .ok (bc, input) : Except String (Int × List Nat)) with
        | .error e => .error e
        | .ok (cnt, input1) =>
          match decodeArrayEntries vdf fn cnt.toNat data input1 with
          | .error e => .error e
          | .ok (data2, input2) =>
            match longDecoder input2 with
            | .error e => .error (newDecoderError fn e)
            | .ok (next, input3) => arrayDfLoop vdf fn fuel next data2 input3 := rfl

theorem mapDfLoop_stop (vdf : BinDecoder) (fn : String) (fuel : Nat)
    (data : List (List Nat × Datum)) (input : List Nat) :
    mapDfLoop vdf fn fuel 0 data input = .ok (data, input) := by
  unfold mapDfLoop
  rw [if_pos rfl]

theorem mapDfLoop_step (vdf : BinDecoder) (fn : String) (fuel : Nat) (bc : Int)
    (data : List (List Nat × Datum)) (input : List Nat) :
    mapDfLoop vdf fn (fuel + 1) bc data input =
      if bc = 0 then .ok (data, input)
      else
        match (if bc < 0 then
            match longDecoder input with
            | .error e => .error (newDecoderError fn e)
            | .ok (_, rest) => .ok (-bc, rest)
          else .ok (bc, input) : Except String (Int × List Nat)) with
        | .error e => .error e
        | .ok (cnt, input1) =>
          match decodeMapEntries vdf fn cnt.toNat data input1 with
          | .error e => .error e
          | .ok (data2, input2) =>
            match longDecoder input2 with
            | .error e => .error (newDecoderError fn e)
            | .ok (next, input3) => mapDfLoop vdf fn fuel next data2 input3 := rfl

theorem arrayDfLoop_single (vdf : BinDecoder) (fn : String)
    (xs : List (List Nat × Datum)) (acc : List Datum) (tail : List Nat) (f : Nat)
    (hok : ∀ e ∈ xs, ∀ r, vdf (e.1 ++ r) = .ok (e.2, r)) (hne : xs ≠ []) :
    arrayDfLoop vdf fn (f + 1) (xs.length : Int) acc
      ((xs.map (fun e => e.1)).flatten ++ 0 :: tail) =
      .ok (acc ++ xs.map (fun e => e.2), tail) := by
  have hpos : 0 < xs.length := List.length_pos.mpr hne
  rw [arrayDfLoop_step]
  rw [if_neg (by exact_mod_cast Nat.pos_iff_ne_zero.mp hpos : ¬ ((xs.length : Int) = 0))]
  rw [if_neg (by omega : ¬ ((xs.length : Int) < 0))]
  dsimp only
  rw [Int.toNat_natCast]
  rw [decodeArrayEntries_spec vdf fn xs acc (0 :: tail) hok]
  dsimp only
  rw [longDecoder_zero]
  dsimp only
  rw [arrayDfLoop_stop]

theorem arrayDfLoop_negblock (vdf : BinDecoder) (fn : String)
    (xs : List (List Nat × Datum)) (acc : List Datum) (tail : List Nat) (f : Nat)
    (hint : Int) (hh1 : -(2 ^ 63) ≤ hint) (hh2 : hint < 2 ^ 63)
    (hok : ∀ e ∈ xs, ∀ r, vdf (e.1 ++ r) = .ok (e.2, r)) (hne : xs ≠ []) :
    arrayDfLoop vdf fn (f + 1) (-(xs.length : Int)) acc
      (longEncoder hint ++ ((xs.map (fun e => e.1)).flatten ++ 0 :: tail)) =
      .ok (acc ++ xs.map (fun e => e.2), tail) := by
  have hpos : 0 < xs.length := List.length_pos.mpr hne
  rw [arrayDfLoop_step]
  rw [if_neg (by omega : ¬ (-(xs.length : Int) = 0))]
  rw [if_pos (by omega : -(xs.length : Int) < 0)]
  rw [longDecoder_longEncoder hint _ hh1 hh2]
  dsimp only
  rw [neg_neg, Int.toNat_natCast]
  rw [decodeArrayEntries_spec vdf fn xs acc (0 :: tail) hok]
  dsimp only
  rw [longDecoder_zero]
  dsimp only
  rw [arrayDfLoop_stop]

theorem arrayDfLoop_ones (vdf : BinDecoder) (fn : String) :
    ∀ (t : List (List Nat × Datum)) (e : List Nat × Datum) (acc : List Datum)
      (tail : List Nat) (f : Nat),
      (∀ x ∈ e :: t, ∀ r, vdf (x.1 ++ r) = .ok (x.2, r)) →
      t.length ≤ f →
      arrayDfLoop vdf fn (f + 1) 1 acc
        (e.1 ++ ((t.map (fun x => longEncoder 1 ++ x.1)).flatten ++ 0 :: tail)) =
        .ok (acc ++ (e :: t).map (fun x => x.2), tail) := by
  intro t
  induction t with
  | nil =>
    intro e acc tail f hok _
    rw [arrayDfLoop_step]
    rw [if_neg (by decide : ¬ ((1 : Int) = 0))]
    rw [if_neg (by decide : ¬ ((1 : Int) < 0))]
    dsimp only
    simp only [List.map_nil, List.flatten_nil, List.nil_append, Int.toNat_one,
      decodeArrayEntries]
    rw [hok e (List.mem_cons_self e []) (0 :: tail)]
    dsimp only
    rw [longDecoder_zero]
    dsimp only
    rw [arrayDfLoop_stop]
    simp
  | cons e2 t ih =>
    intro e acc tail f hok hf
    obtain ⟨f', rfl⟩ : ∃ f', f = f' + 1 := ⟨f - 1, by simp at hf; omega⟩
    rw [arrayDfLoop_step]
    rw [if_neg (by decide : ¬ ((1 : Int) = 0))]
    rw [if_neg (by decide : ¬ ((1 : Int) < 0))]
    dsimp only
    simp only [Int.toNat_one, decodeArrayEntries]
    rw [hok e (List.mem_cons_self e (e2 :: t))
      ((((e2 :: t).map (fun x => longEncoder 1 ++ x.1)).flatten ++ 0 :: tail))]
    dsimp only
    have hstream : (((e2 :: t).map (fun x => longEncoder 1 ++ x.1)).flatten ++ 0 :: tail) =
        2 :: (e2.1 ++ ((t.map (fun x => longEncoder 1 ++ x.1)).flatten ++ 0 :: tail)) := by
      simp [longEncoder_one]
    rw [hstream, longDecoder_one]
    dsimp only
    rw [ih e2 (acc ++ [e.2]) tail f'
      (fun x hx r => hok x (List.mem_cons_of_mem e hx) r)
      (by simp at hf; omega)]
    simp

theorem mapDfLoop_single (vdf : BinDecoder) (fn : String)
    (kvs : List (List Nat × List Nat × Datum)) (acc : List (List Nat × Datum))
    (tail : List Nat) (f : Nat)
    (hok : ∀ e ∈ kvs, ∀ r, vdf (e.2.1 ++ r) = .ok (e.2.2, r))
    (hklen : ∀ e ∈ kvs, (e.1.length : Int) < 2 ^ 63) (hne : kvs ≠ []) :
    mapDfLoop vdf fn (f + 1) (kvs.length : Int) acc
      ((kvs.map (fun e => stringEncoder e.1 ++ e.2.1)).flatten ++ 0 :: tail) =
      .ok (kvs.foldl (fun m e => goInsert m e.1 e.2.2) acc, tail) := by
  have hpos : 0 < kvs.length := List.length_pos.mpr hne
  rw [mapDfLoop_step]
  rw [if_neg (by exact_mod_cast Nat.pos_iff_ne_zero.mp hpos : ¬ ((kvs.length : Int) = 0))]
  rw [if_neg (by omega : ¬ ((kvs.length : Int) < 0))]
  dsimp only
  rw [Int.toNat_natCast]
  rw [decodeMapEntries_spec vdf fn kvs acc (0 :: tail) hok hklen]
  dsimp only
  rw [longDecoder_zero]
  dsimp only
  rw [mapDfLoop_stop]

theorem mapDfLoop_ones (vdf : BinDecoder) (fn : String) :
    ∀ (t : List (List Nat × List Nat × Datum)) (e : List Nat × List Nat × Datum)
      (acc : List (List Nat × Datum)) (tail : List Nat) (f : Nat),
      (∀ x ∈ e :: t, ∀ r, vdf (x.2.1 ++ r) = .ok (x.2.2, r)) →
      (∀ x ∈ e :: t, (x.1.length : Int) < 2 ^ 63) →
      t.length ≤ f →
      mapDfLoop vdf fn (f + 1) 1 acc
        ((stringEncoder e.1 ++ e.2.1) ++
          ((t.map (fun x => longEncoder 1 ++ (stringEncoder x.1 ++ x.2.1))).flatten ++ 0 :: tail)) =
        .ok ((e :: t).foldl (fun m x => goInsert m x.1 x.2.2) acc, tail) := by
  intro t
  induction t with
  | nil =>
    intro e acc tail f hok hklen _
    rw [mapDfLoop_step]
    rw [if_neg (by decide : ¬ ((1 : Int) = 0))]
    rw [if_neg (by decide : ¬ ((1 : Int) < 0))]
    dsimp only
    simp only [List.map_nil, List.flatten_nil, List.nil_append, Int.toNat_one,
      decodeMapEntries]
    rw [List.append_assoc]
    rw [stringDecoder_stringEncoder e.1 _ (hklen e (List.mem_cons_self e []))]
    dsimp only
    rw [hok e (List.mem_cons_self e []) (0 :: tail)]
    dsimp only
    rw [longDecoder_zero]
    dsimp only
    rw [mapDfLoop_stop]
    rfl
  | cons e2 t ih =>
    intro e acc tail f hok hklen hf
    obtain ⟨f', rfl⟩ : ∃ f', f = f' + 1 := ⟨f - 1, by simp at hf; omega⟩
    rw [mapDfLoop_step]
    rw [if_neg (by decide : ¬ ((1 : Int) = 0))]
    rw [if_neg (by decide : ¬ ((1 : Int) < 0))]
    dsimp only
    simp only [Int.toNat_one, decodeMapEntries]
    rw [List.append_assoc]
    rw [stringDecoder_stringEncoder e.1 _ (hklen e (List.mem_cons_self e (e2 :: t)))]
    dsimp only
    rw [hok e (List.mem_cons_self e (e2 :: t))
      (((e2 :: t).map (fun x => longEncoder 1 ++ (stringEncoder x.1 ++ x.2.1))).flatten ++ 0 :: tail)]
    dsimp only
    have hstream : (((e2 :: t).map (fun x => longEncoder 1 ++ (stringEncoder x.1 ++ x.2.1))).flatten ++ 0 :: tail) =
        2 :: ((stringEncoder e2.1 ++ e2.2.1) ++
          ((t.map (fun x => longEncoder 1 ++ (stringEncoder x.1 ++ x.2.1))).flatten ++ 0 :: tail)) := by
      simp [longEncoder_one]
    rw [hstream, longDecoder_one]
    dsimp only
    rw [ih e2 (goInsert acc e.1 e.2.2) tail f'
      (fun x hx r => hok x (List.mem_cons_of_mem e hx) r)
      (fun x hx => hklen x (List.mem_cons_of_mem e hx))
      (by simp at hf; omega)]
    rfl

theorem ones_flatten_len (t : List (List Nat × Datum)) :
    t.length ≤ ((t.map (fun x => longEncoder 1 ++ x.1)).flatten).length := by
  induction t with
  | nil => simp
  | cons e t ih =>
    simp only [List.map_cons, List.flatten_cons, List.length_append, List.length_cons]
    have hl1 : (longEncoder 1).length = 1 := by simp [longEncoder_one]
    omega

theorem ones_flatten_len_map (t : List (List Nat × List Nat × Datum)) :
    t.length ≤ ((t.map (fun x => longEncoder 1 ++ (stringEncoder x.1 ++ x.2.1))).flatten).length := by
  induction t with
  | nil => simp
  | cons e t ih =>
    simp only [List.map_cons, List.flatten_cons, List.length_append, List.length_cons]
    have hl1 : (longEncoder 1).length = 1 := by simp [longEncoder_one]
    omega

/-- C7: for every element decoder, the map and array binary decoders accept
any block framing of the same entries and produce the same result: a single
block of `N` entries, `N` blocks of one entry, and (for the array) a negative
count whose absolute value is the entry count followed by a discarded
byte-size hint all decode to the same value, consuming exactly the framed
bytes; and for maps the decoded Go map binds each key to the value of its
last occurrence in the stream (later entries overwrite earlier ones). -/
theorem containerDf_framing (vdf : BinDecoder)
    (xs : List (List Nat × Datum)) (kvs : List (List Nat × List Nat × Datum))
    (hxs : ∀ e ∈ xs, ∀ r, vdf (e.1 ++ r) = .ok (e.2, r))
    (hkvs : ∀ e ∈ kvs, ∀ r, vdf (e.2.1 ++ r) = .ok (e.2.2, r))
    (hklen : ∀ e ∈ kvs, (e.1.length : Int) < 2 ^ 63)
    (hxne : xs ≠ []) (hkne : kvs ≠ [])
    (hxlen : (xs.length : Int) < 2 ^ 63) (hklen2 : (kvs.length : Int) < 2 ^ 63)
    (hint : Int) (hh1 : -(2 ^ 63) ≤ hint) (hh2 : hint < 2 ^ 63) (tail : List Nat) :
    arrayDf vdf (longEncoder (xs.length : Int) ++
        ((xs.map (fun e => e.1)).flatten ++ 0 :: tail)) =
      .ok (xs.map (fun e => e.2), tail) ∧
    arrayDf vdf ((xs.map (fun e => longEncoder 1 ++ e.1)).flatten ++ 0 :: tail) =
      .ok (xs.map (fun e => e.2), tail) ∧
    arrayDf vdf (longEncoder (-(xs.length : Int)) ++ (longEncoder hint ++
        ((xs.map (fun e => e.1)).flatten ++ 0 :: tail))) =
      .ok (xs.map (fun e => e.2), tail) ∧
    mapDf vdf (longEncoder (kvs.length : Int) ++
        ((kvs.map (fun e => stringEncoder e.1 ++ e.2.1)).flatten ++ 0 :: tail)) =
      .ok (kvs.foldl (fun m e => goInsert m e.1 e.2.2) [], tail) ∧
    mapDf vdf ((kvs.map (fun e => longEncoder 1 ++ (stringEncoder e.1 ++ e.2.1))).flatten ++
        0 :: tail) =
      .ok (kvs.foldl (fun m e => goInsert m e.1 e.2.2) [], tail) ∧
    (∀ k, goLookup (kvs.foldl (fun m e => goInsert m e.1 e.2.2) []) k =
      (match (kvs.filter (fun e => decide (e.1 = k))).getLast? with
       | some e => some e.2.2
       | none => none)) := by
  refine ⟨?_, ?_, ?_, ?_, ?_, ?_⟩
  · simp only [arrayDf]
    rw [longDecoder_longEncoder (xs.length : Int) _ (by omega) hxlen]
    dsimp only
    exact arrayDfLoop_single vdf arrayFriendlyName xs [] tail _ hxs hxne
  · obtain ⟨e, t, rfl⟩ : ∃ e t, xs = e :: t := by
      cases xs with
      | nil => exact absurd rfl hxne
      | cons e t => exact ⟨e, t, rfl⟩
    simp only [arrayDf]
    have hstream : (((e :: t).map (fun x => longEncoder 1 ++ x.1)).flatten ++ 0 :: tail) =
        2 :: (e.1 ++ ((t.map (fun x => longEncoder 1 ++ x.1)).flatten ++ 0 :: tail)) := by
      simp [longEncoder_one]
    rw [hstream, longDecoder_one]
    dsimp only
    have hfl : t.length ≤
        (e.1 ++ ((t.map (fun x => longEncoder 1 ++ x.1)).flatten ++ 0 :: tail)).length := by
      have := ones_flatten_len t
      simp only [List.length_append, List.length_cons]
      omega
    obtain ⟨f, hf⟩ : ∃ f, (e.1 ++ ((t.map (fun x => longEncoder 1 ++ x.1)).flatten ++
        0 :: tail)).length = f := ⟨_, rfl⟩
    rw [hf]
    have hans := arrayDfLoop_ones vdf arrayFriendlyName t e [] tail f hxs (by omega)
    simpa using hans
  · simp only [arrayDf]
    rw [longDecoder_longEncoder (-(xs.length : Int)) _ (by omega) (by omega)]
    dsimp only
    exact arrayDfLoop_negblock vdf arrayFriendlyName xs [] tail _ hint hh1 hh2 hxs hxne
  · simp only [mapDf]
    rw [longDecoder_longEncoder (kvs.length : Int) _ (by omega) hklen2]
    dsimp only
    exact mapDfLoop_single vdf mapFriendlyName kvs [] tail _ hkvs hklen hkne
  · obtain ⟨e, t, rfl⟩ : ∃ e t, kvs = e :: t := by
      cases kvs with
      | nil => exact absurd rfl hkne
      | cons e t => exact ⟨e, t, rfl⟩
    simp only [mapDf]
    have hstream : (((e :: t).map (fun x => longEncoder 1 ++ (stringEncoder x.1 ++ x.2.1))).flatten ++ 0 :: tail) =
        2 :: ((stringEncoder e.1 ++ e.2.1) ++
          ((t.map (fun x => longEncoder 1 ++ (stringEncoder x.1 ++ x.2.1))).flatten ++ 0 :: tail)) := by
      simp [longEncoder_one]
    rw [hstream, longDecoder_one]
    dsimp only
    have hfl := ones_flatten_len_map t
    obtain ⟨f, hf⟩ : ∃ f, ((stringEncoder e.1 ++ e.2.1) ++
        ((t.map (fun x => longEncoder 1 ++ (stringEncoder x.1 ++ x.2.1))).flatten ++
          0 :: tail)).length = f := ⟨_, rfl⟩
    rw [hf]
    have hlenf : t.length ≤ f := by
      rw [← hf]
      simp only [List.length_append, List.length_cons]
      omega
    exact mapDfLoop_ones vdf mapFriendlyName t e [] tail f hkvs hklen hlenf
  · intro k
    rw [goLookup_foldl_insert (fun e => e.1) (fun e => e.2.2) kvs [] k]
    cases (kvs.filter (fun e => decide (e.1 = k))).getLast? <;> rfl

/-- C7 (witness): with the one-byte value decoder, the two array entries
`5, 6` decode identically from a single block of two, two blocks of one, and
a negative-count block with byte-size hint `2`; the two map entries both
keyed `k` decode identically from either framing and the repeated key holds
the later value `6`. -/
theorem containerDf_framing_witness :
    arrayDf byteVdf [4, 5, 6, 0, 9] = .ok ([.dint32 5, .dint32 6], [9]) ∧
    arrayDf byteVdf [2, 5, 2, 6, 0, 9] = .ok ([.dint32 5, .dint32 6], [9]) ∧
    arrayDf byteVdf [3, 4, 5, 6, 0, 9] = .ok ([.dint32 5, .dint32 6], [9]) ∧
    mapDf byteVdf [4, 2, 107, 5, 2, 107, 6, 0, 9] =
      .ok ([([107], .dint32 6)], [9]) ∧
    mapDf byteVdf [2, 2, 107, 5, 2, 2, 107, 6, 0, 9] =
      .ok ([([107], .dint32 6)], [9]) ∧
    goLookup [([107], Datum.dint32 6)] [107] = some (.dint32 6) := by
  have hx : ∀ e ∈ wXs, ∀ r, byteVdf (e.1 ++ r) = .ok (e.2, r) := by
    intro e he r
    simp only [wXs, List.mem_cons, List.not_mem_nil, or_false] at he
    rcases he with rfl | rfl <;> rfl
  have hk : ∀ e ∈ wKvs, ∀ r, byteVdf (e.2.1 ++ r) = .ok (e.2.2, r) := by
    intro e he r
    simp only [wKvs, List.mem_cons, List.not_mem_nil, or_false] at he
    rcases he with rfl | rfl <;> rfl
  have hkl : ∀ e ∈ wKvs, ((e.1.length : Int) < 2 ^ 63) := by
    intro e he
    simp only [wKvs, List.mem_cons, List.not_mem_nil, or_false] at he
    rcases he with rfl | rfl <;> decide
  have h := containerDf_framing byteVdf wXs wKvs hx hk hkl
    (List.cons_ne_nil _ _) (List.cons_ne_nil _ _)
    (by decide) (by decide) 2 (by decide) (by decide) [9]
  exact ⟨h.1, h.2.1, h.2.2.1, h.2.2.2.1, h.2.2.2.2.1, h.2.2.2.2.2 [107]⟩

/-- C5 (witness): a one-field record `R` with field `a` bound to `int32 7`
and a field codec producing the JSON number `7` serializes to
`\x7b"a":7\x7d`, and the key sequence is exactly the field sequence. -/
theorem recordJef_spec_witness :
    recordJef [fun _ => .ok (.num (.int 7))] "R"
      (.drecord (.mk "R" [.mk "a" (.dint32 7) false .dnull])) = .ok "\x7b\"a\":7\x7d" ∧
    [("a", Json.num (.int 7))].map Prod.fst =
      [FieldD.mk "a" (.dint32 7) false .dnull].map (fun f => goShortname f.name) := by
  have h := recordJef_spec [fun _ => .ok (.num (.int 7))] "R"
    [.mk "a" (.dint32 7) false .dnull]
  constructor
  · rw [h.1]
    rfl
  · exact h.2 [("a", Json.num (.int 7))] (by rfl)

/-! ### Character-level facts for the JSON round trip -/

theorem skipWs_cons (c : Char) (l : List Char) (h : isWsChar c = false) :
    skipWs (c :: l) = c :: l := by
  simp [skipWs, h]

theorem hexVal_hexDigitChar : ∀ d, d < 16 → hexVal (hexDigitChar d) = some d := by
  decide

theorem digitChar_toNat : ∀ d, d < 10 → (Char.ofNat (48 + d)).toNat = 48 + d := by
  decide

theorem digitChar_isDigit : ∀ d, d < 10 → (Char.ofNat (48 + d)).isDigit = true := by
  decide

theorem digitChar_not_ws : ∀ d, d < 10 → isWsChar (Char.ofNat (48 + d)) = false := by
  decide

theorem digitChar_dispatch : ∀ d, d < 10 →
    ((Char.ofNat (48 + d)) == 'n') = false ∧
    ((Char.ofNat (48 + d)) == 't') = false ∧
    ((Char.ofNat (48 + d)) == 'f') = false ∧
    ((Char.ofNat (48 + d)) == '"') = false ∧
    ((Char.ofNat (48 + d)) == '[') = false ∧
    ((Char.ofNat (48 + d)) == lbraceChar) = false ∧
    (Char.ofNat (48 + d) = '-') = False := by
  decide

theorem digitChar_eq_zero_char : ∀ d, d < 10 →
    (Char.ofNat (48 + d) = '0' ↔ d = 0) := by
  decide

/-! ### The decimal printer inverts through the decimal reader -/

theorem natDigitsAux_ne_nil (fuel n : Nat) : natDigitsAux fuel n ≠ [] := by
  cases fuel with
  | zero => simp [natDigitsAux]
  | succ f =>
    unfold natDigitsAux
    split <;> simp

theorem natDigitsAux_digits : ∀ fuel n, n ≤ fuel →
    ∀ c ∈ natDigitsAux fuel n, ∃ d, d < 10 ∧ c = Char.ofNat (48 + d) := by
  intro fuel
  induction fuel with
  | zero =>
    intro n hn c hc
    obtain rfl : n = 0 := by omega
    simp only [natDigitsAux, List.mem_singleton] at hc
    exact ⟨0, by omega, hc⟩
  | succ f ih =>
    intro n hn c hc
    unfold natDigitsAux at hc
    by_cases h : n < 10
    · rw [if_pos h] at hc
      simp only [List.mem_singleton] at hc
      exact ⟨n, h, hc⟩
    · rw [if_neg h] at hc
      rcases List.mem_append.mp hc with h1 | h1
      · exact ih (n / 10) (by omega) c h1
      · simp only [List.mem_singleton] at h1
        exact ⟨n % 10, by omega, h1⟩

theorem natDigitsAux_head_ne_zero : ∀ fuel n, n ≤ fuel → 0 < n →
    (natDigitsAux fuel n).head? ≠ some '0' := by
  intro fuel
  induction fuel with
  | zero => intro n hn h0; omega
  | succ f ih =>
    intro n hn h0
    unfold natDigitsAux
    by_cases h : n < 10
    · rw [if_pos h]
      simp only [List.head?_cons, Option.some.injEq]
      intro hz
      exact absurd ((digitChar_eq_zero_char n h).mp (Option.some.inj hz)) (by omega)
    · rw [if_neg h]
      cases haux : natDigitsAux f (n / 10) with
      | nil => exact absurd haux (natDigitsAux_ne_nil f (n / 10))
      | cons a t =>
        simp only [List.cons_append, List.head?_cons]
        have := ih (n / 10) (by omega) (by omega)
        rw [haux] at this
        simpa using this

theorem digitsToNat_append (xs : List Char) (c : Char) :
    digitsToNat (xs ++ [c]) = digitsToNat xs * 10 + (c.toNat - 48) := by
  simp [digitsToNat, List.foldl_append]

theorem digitsToNat_natDigitsAux : ∀ fuel n, n ≤ fuel →
    digitsToNat (natDigitsAux fuel n) = n := by
  intro fuel
  induction fuel with
  | zero =>
    intro n hn
    obtain rfl : n = 0 := by omega
    decide
  | succ f ih =>
    intro n hn
    unfold natDigitsAux
    by_cases h : n < 10
    · rw [if_pos h]
      have : ([Char.ofNat (48 + n)] : List Char) = [] ++ [Char.ofNat (48 + n)] := rfl
      rw [this, digitsToNat_append, digitChar_toNat n h]
      simp [digitsToNat]
    · rw [if_neg h]
      rw [digitsToNat_append, ih (n / 10) (by omega), digitChar_toNat (n % 10) (by omega)]
      omega

theorem digitsToNat_natDigits (n : Nat) : digitsToNat (natDigits n) = n :=
  digitsToNat_natDigitsAux n n le_rfl

/-! ### The string escaper inverts through the string-body parser -/

theorem escapeChars_length : ∀ s : List Char, s.length ≤ (escapeChars s).length := by
  intro s
  induction s with
  | nil => simp [escapeChars]
  | cons c cs ih =>
    unfold escapeChars
    rw [List.length_append]
    have h1 : 1 ≤ (if c == '"' then ['\\', '"']
       else if c == '\\' then ['\\', '\\']
       else if c == '\n' then ['\\', 'n']
       else if c == '\r' then ['\\', 'r']
       else if c == '\t' then ['\\', 't']
       else if c == '<' || c == '>' || c == '&' then uEscape c.toNat
       else if c.toNat < 32 || c.toNat == 8232 || c.toNat == 8233 then uEscape c.toNat
       else [c]).length := by
      repeat' split
      all_goals simp [uEscape]
    simp only [List.length_cons]
    omega

theorem psbAux_roundtrip : ∀ fuel (s rest : List Char), s.length < fuel →
    parseStringBodyAux fuel (escapeChars s ++ '"' :: rest) = .ok (s, rest) := by
  intro fuel
  induction fuel with
  | zero => intro s rest h; omega
  | succ f ih =>
    intro s rest hl
    cases s with
    | nil => simp [escapeChars, parseStringBodyAux]
    | cons c cs =>
      have hcs : cs.length < f := by
        simp only [List.length_cons] at hl; omega
      by_cases h1 : c == '"'
      · obtain rfl : c = '"' := eq_of_beq h1
        simp [escapeChars, parseStringBodyAux, escCharOf,
          List.cons_append, List.append_assoc, ih cs rest hcs]
      · by_cases h2 : c == '\\'
        · obtain rfl : c = '\\' := eq_of_beq h2
          simp [escapeChars, parseStringBodyAux, escCharOf,
            List.cons_append, List.append_assoc, ih cs rest hcs]
        · by_cases h3 : c == '\n'
          · obtain rfl : c = '\n' := eq_of_beq h3
            simp [escapeChars, parseStringBodyAux, escCharOf,
              List.cons_append, List.append_assoc, ih cs rest hcs]
          · by_cases h4 : c == '\r'
            · obtain rfl : c = '\r' := eq_of_beq h4
              simp [escapeChars, parseStringBodyAux, escCharOf,
                List.cons_append, List.append_assoc, ih cs rest hcs]
            · by_cases h5 : c == '\t'
              · obtain rfl : c = '\t' := eq_of_beq h5
                simp [escapeChars, parseStringBodyAux, escCharOf,
                  List.cons_append, List.append_assoc, ih cs rest hcs]
              · by_cases h6 : c == '<' || c == '>' || c == '&'
                · have : c = '<' ∨ c = '>' ∨ c = '&' := by
                    rcases Bool.or_eq_true_iff.mp h6 with h | h
                    · rcases Bool.or_eq_true_iff.mp h with h | h
                      · exact Or.inl (eq_of_beq h)
                      · exact Or.inr (Or.inl (eq_of_beq h))
                    · exact Or.inr (Or.inr (eq_of_beq h))
                  rcases this with rfl | rfl | rfl <;>
                    simp [escapeChars, parseStringBodyAux, escCharOf, uEscape,
                      hexDigitChar, hexVal,
                      List.cons_append, List.append_assoc, ih cs rest hcs]
                · by_cases h7 : c.toNat < 32 || c.toNat == 8232 || c.toNat == 8233
                  · have hb : c.toNat < 65536 := by
                      rcases Bool.or_eq_true_iff.mp h7 with h | h
                      · rcases Bool.or_eq_true_iff.mp h with h | h
                        · have := of_decide_eq_true h; omega
                        · have := eq_of_beq h; omega
                      · have := eq_of_beq h; omega
                    have harith : 4096 * (c.toNat / 4096 % 16) +
                        256 * (c.toNat / 256 % 16) + 16 * (c.toNat / 16 % 16) +
                        c.toNat % 16 = c.toNat := by omega
                    have e1 := hexVal_hexDigitChar (c.toNat / 4096 % 16)
                      (Nat.mod_lt _ (by norm_num))
                    have e2 := hexVal_hexDigitChar (c.toNat / 256 % 16)
                      (Nat.mod_lt _ (by norm_num))
                    have e3 := hexVal_hexDigitChar (c.toNat / 16 % 16)
                      (Nat.mod_lt _ (by norm_num))
                    have e4 := hexVal_hexDigitChar (c.toNat % 16)
                      (Nat.mod_lt _ (by norm_num))
                    simp [escapeChars, h1, h2, h3, h4, h5, h6, h7, uEscape,
                      List.cons_append, List.append_assoc,
                      parseStringBodyAux, e1, e2, e3, e4, harith,
                      Char.ofNat_toNat, ih cs rest hcs]
                  · simp [escapeChars, h1, h2, h3, h4, h5, h6, h7,
                      List.cons_append, List.append_assoc,
                      parseStringBodyAux, ih cs rest hcs]

theorem parseStringBody_roundtrip (s rest : List Char) :
    parseStringBody (escapeChars s ++ '"' :: rest) = .ok (s, rest) := by
  apply psbAux_roundtrip
  have := escapeChars_length s
  simp only [List.length_append, List.length_cons]
  omega

/-! ### The integer printer inverts through the number parser -/

theorem numBd_takeWhile (r : List Char) (h : numBd r = true) :
    r.takeWhile Char.isDigit = [] := by
  cases r with
  | nil => rfl
  | cons c t =>
    simp only [numBd, Bool.not_eq_eq_eq_not, Bool.not_true, Bool.or_eq_false_iff] at h
    simp [List.takeWhile_cons, h.1.1.1]

theorem numBd_dropWhile (r : List Char) (h : numBd r = true) :
    r.dropWhile Char.isDigit = r := by
  cases r with
  | nil => rfl
  | cons c t =>
    simp only [numBd, Bool.not_eq_eq_eq_not, Bool.not_true, Bool.or_eq_false_iff] at h
    simp [List.dropWhile_cons, h.1.1.1]

theorem natDigits_all_digits (m : Nat) :
    ∀ c ∈ natDigits m, Char.isDigit c = true := by
  intro c hc
  obtain ⟨d, hd, rfl⟩ := natDigitsAux_digits m m le_rfl c hc
  exact digitChar_isDigit d hd

theorem parseNumber_roundtrip (i : Int) (rest : List Char) (hbd : numBd rest = true) :
    parseNumber (intDigits i ++ rest) = .ok (.num (.int i), rest) := by
  have htake0 := numBd_takeWhile rest hbd
  have hdrop0 := numBd_dropWhile rest hbd
  have hrest : ∀ c t, rest = c :: t → (c == '.' || c == 'e' || c == 'E') = false := by
    intro c t hr
    rw [hr] at hbd
    simp only [numBd, Bool.not_eq_eq_eq_not, Bool.not_true, Bool.or_eq_false_iff] at hbd
    simp [hbd.1.1.2, hbd.1.2, hbd.2]
  by_cases hi : i < 0
  · set m := (-i).toNat with hm
    have hmpos : 0 < m := by omega
    obtain ⟨c0, tl, hck⟩ : ∃ c0 tl, natDigits m = c0 :: tl := by
      cases h : natDigits m with
      | nil => exact absurd h (natDigitsAux_ne_nil m m)
      | cons a b => exact ⟨a, b, rfl⟩
    have hhead : c0 ≠ '0' := by
      have h0 : (natDigits m).head? ≠ some '0' :=
        natDigitsAux_head_ne_zero m m le_rfl hmpos
      rw [hck] at h0
      simpa using h0
    have htake : ((natDigits m ++ rest).takeWhile Char.isDigit) = natDigits m := by
      rw [List.takeWhile_append_of_pos (natDigits_all_digits m), htake0,
        List.append_nil]
    have hdrop : ((natDigits m ++ rest).dropWhile Char.isDigit) = rest := by
      rw [List.dropWhile_append_of_pos (natDigits_all_digits m), hdrop0]
    have hv : digitsToNat (natDigits m) = m := digitsToNat_natDigits m
    simp only [intDigits, if_pos hi, List.cons_append]
    simp only [parseNumber]
    rw [htake, hdrop, hv, hck]
    simp only [List.isEmpty_cons, Bool.false_eq_true, if_false,
      List.head?_cons, List.length_cons]
    rw [if_neg (by simp [hhead])]
    cases hr : rest with
    | nil =>
      simp
      omega
    | cons c t =>
      dsimp only
      rw [hrest c t hr]
      simp
      omega
  · set m := i.toNat with hm
    obtain ⟨c0, tl, hck⟩ : ∃ c0 tl, natDigits m = c0 :: tl := by
      cases h : natDigits m with
      | nil => exact absurd h (natDigitsAux_ne_nil m m)
      | cons a b => exact ⟨a, b, rfl⟩
    have hc0 : c0 ∈ natDigits m := by rw [hck]; exact List.mem_cons_self c0 tl
    obtain ⟨d0, hd0, hc0d⟩ := natDigitsAux_digits m m le_rfl c0 hc0
    subst hc0d
    have htake2 : List.takeWhile Char.isDigit
        (Char.ofNat (48 + d0) :: (tl ++ rest)) = Char.ofNat (48 + d0) :: tl := by
      rw [← List.cons_append, ← hck]
      rw [List.takeWhile_append_of_pos (natDigits_all_digits m), htake0,
        List.append_nil]
    have hdrop2 : List.dropWhile Char.isDigit
        (Char.ofNat (48 + d0) :: (tl ++ rest)) = rest := by
      rw [← List.cons_append, ← hck]
      rw [List.dropWhile_append_of_pos (natDigits_all_digits m), hdrop0]
    have hv2 : digitsToNat (Char.ofNat (48 + d0) :: tl) = m := by
      rw [← hck]; exact digitsToNat_natDigits m
    by_cases hm0 : m = 0
    · have h2 := hck
      rw [hm0] at h2
      simp only [natDigits, natDigitsAux] at h2
      rw [List.cons.injEq] at h2
      obtain rfl : tl = [] := h2.2.symm
      obtain rfl : i = 0 := by omega
      cases hr : rest with
      | nil => rfl
      | cons c t =>
        rw [hr] at htake0 hdrop0
        simp [parseNumber, intDigits, natDigits, natDigitsAux,
          List.takeWhile_cons, htake0, hdrop0, digitsToNat, hrest c t hr]
    · have hhead : Char.ofNat (48 + d0) ≠ '0' := by
        have h0 : (natDigits m).head? ≠ some '0' :=
          natDigitsAux_head_ne_zero m m le_rfl (by omega)
        rw [hck] at h0
        simpa using h0
      have hd0ne : d0 ≠ 0 := by
        intro h
        subst h
        exact hhead (by decide)
      have hd0pos : 1 ≤ d0 := by omega
      simp only [intDigits, if_neg hi]
      rw [hck, List.cons_append]
      simp only [parseNumber]
      interval_cases d0 <;>
        (simp only [Nat.reduceAdd] at htake2 hdrop2 hv2 hhead ⊢
         simp [htake2, hdrop2, hv2, hhead]
         cases hr : rest with
         | nil =>
           simp
           omega
         | cons c t =>
           have hc := hrest c t hr
           simp only [Bool.or_eq_false_iff, beq_eq_false_iff_ne] at hc
           simp [hc.1.1, hc.1.2, hc.2]
           omega)

/-! ### Sorted insertion: identity on sorted input, sortedness preserved -/

theorem keysAscending_all_lt : ∀ (acc : List (String × Json)) (kv : String × Json)
    (t : List (String × Json)), keysAscending (acc ++ kv :: t) = true →
    ∀ x ∈ acc, x.1 < kv.1 := by
  intro acc
  induction acc with
  | nil => intro kv t h x hx; simp at hx
  | cons a acc' ih =>
    intro kv t h x hx
    rw [List.cons_append] at h
    simp only [keysAscending, Bool.and_eq_true] at h
    have htail : keysAscending (acc' ++ kv :: t) = true := h.2
    rcases List.mem_cons.mp hx with rfl | hx'
    · cases hacc : acc' with
      | nil =>
        rw [hacc] at h
        simp only [List.nil_append] at h
        exact of_decide_eq_true h.1
      | cons b acc'' =>
        have hab : x.1 < b.1 := by
          rw [hacc] at h
          simp only [List.cons_append] at h
          exact of_decide_eq_true h.1
        have hb : b.1 < kv.1 := by
          apply ih kv t htail b
          rw [hacc]
          exact List.mem_cons_self b acc''
        exact lt_trans hab hb
    · exact ih kv t htail x hx'

theorem sortedInsert_append (m : List (String × Json)) (k : String) (v : Json)
    (h : ∀ kv ∈ m, kv.1 < k) : sortedInsert m k v = m ++ [(k, v)] := by
  induction m with
  | nil => rfl
  | cons kv0 t ih =>
    have h0 : kv0.1 < k := h kv0 (List.mem_cons_self kv0 t)
    simp only [sortedInsert]
    rw [if_neg (by exact fun hlt => absurd (lt_trans hlt h0) (lt_irrefl k)),
      if_neg (by exact fun he => absurd (he ▸ h0) (lt_irrefl k)),
      ih (fun kv hkv => h kv (List.mem_cons_of_mem kv0 hkv))]
    rfl

theorem sortObjList_of_ascending : ∀ (kvs acc : List (String × Json)),
    keysAscending (acc ++ kvs) = true →
    kvs.foldl (fun m kv => sortedInsert m kv.1 kv.2) acc = acc ++ kvs := by
  intro kvs
  induction kvs with
  | nil => intro acc h; simp
  | cons kv t ih =>
    intro acc h
    simp only [List.foldl_cons]
    have hlt : ∀ x ∈ acc, x.1 < kv.1 := keysAscending_all_lt acc kv t h
    rw [sortedInsert_append acc kv.1 kv.2 hlt]
    have h2 : keysAscending ((acc ++ [(kv.1, kv.2)]) ++ t) = true := by
      rw [List.append_assoc, List.singleton_append]
      simpa using h
    rw [show ((kv.1, kv.2) : String × Json) = kv from rfl] at h2 ⊢
    rw [ih (acc ++ [kv]) h2, List.append_assoc, List.singleton_append]

theorem sortObjList_id (kvs : List (String × Json))
    (h : keysAscending kvs = true) : sortObjList kvs = kvs := by
  have h2 := sortObjList_of_ascending kvs [] (by simpa using h)
  simpa [sortObjList] using h2

theorem sortedInsert_head : ∀ (t : List (String × Json)) (k : String) (v : Json)
    (hd : String × Json), (sortedInsert t k v).head? = some hd →
    hd = (k, v) ∨ t.head? = some hd := by
  intro t k v hd h
  cases t with
  | nil =>
    simp only [sortedInsert, List.head?_cons, Option.some.injEq] at h
    exact Or.inl h.symm
  | cons kv0 t' =>
    simp only [sortedInsert] at h
    by_cases h1 : k < kv0.1
    · rw [if_pos h1] at h
      simp only [List.head?_cons, Option.some.injEq] at h
      exact Or.inl h.symm
    · rw [if_neg h1] at h
      by_cases h2 : k = kv0.1
      · rw [if_pos h2] at h
        simp only [List.head?_cons, Option.some.injEq] at h
        exact Or.inl h.symm
      · rw [if_neg h2] at h
        simp only [List.head?_cons, Option.some.injEq] at h
        exact Or.inr (by simp [h])

theorem keysAscending_sortedInsert (m : List (String × Json)) (k : String)
    (v : Json) (h : keysAscending m = true) :
    keysAscending (sortedInsert m k v) = true := by
  induction m with
  | nil => simp [sortedInsert, keysAscending]
  | cons kv0 t ih =>
    simp only [keysAscending, Bool.and_eq_true] at h
    simp only [sortedInsert]
    by_cases h1 : k < kv0.1
    · rw [if_pos h1]
      simp only [keysAscending, Bool.and_eq_true]
      refine ⟨by simpa using h1, ?_⟩
      exact h
    · rw [if_neg h1]
      by_cases h2 : k = kv0.1
      · rw [if_pos h2]
        simp only [keysAscending, Bool.and_eq_true]
        refine ⟨?_, h.2⟩
        cases t with
        | nil => rfl
        | cons b t' =>
          have := h.1
          subst h2
          simpa using this
      · rw [if_neg h2]
        have hk0 : kv0.1 < k :=
          lt_of_le_of_ne (not_lt.mp h1) (fun he => h2 he.symm)
        simp only [keysAscending, Bool.and_eq_true]
        refine ⟨?_, ih h.2⟩
        cases hs : sortedInsert t k v with
        | nil => rfl
        | cons b r =>
          have hb : b = (k, v) ∨ t.head? = some b := by
            apply sortedInsert_head t k v b
            rw [hs]
            rfl
          rcases hb with rfl | hb
          · simpa using hk0
          · cases t with
            | nil => simp at hb
            | cons b0 t' =>
              simp only [List.head?_cons, Option.some.injEq] at hb
              subst hb
              exact h.1

theorem kvsWF_sortedInsert (m : List (String × Json)) (k : String) (v : Json)
    (h : kvsWF m = true) (hv : jsonWF v = true) :
    kvsWF (sortedInsert m k v) = true := by
  induction m with
  | nil => simp [sortedInsert, kvsWF, hv]
  | cons kv0 t ih =>
    simp only [kvsWF, Bool.and_eq_true] at h
    simp only [sortedInsert]
    by_cases h1 : k < kv0.1
    · rw [if_pos h1]
      simp only [kvsWF, Bool.and_eq_true]
      exact ⟨hv, h.1, h.2⟩
    · rw [if_neg h1]
      by_cases h2 : k = kv0.1
      · rw [if_pos h2]
        simp only [kvsWF, Bool.and_eq_true]
        exact ⟨hv, h.2⟩
      · rw [if_neg h2]
        simp only [kvsWF, Bool.and_eq_true]
        exact ⟨h.1, ih h.2⟩

theorem sortObjList_ascending_acc : ∀ (kvs acc : List (String × Json)),
    keysAscending acc = true →
    keysAscending (kvs.foldl (fun m kv => sortedInsert m kv.1 kv.2) acc) = true := by
  intro kvs
  induction kvs with
  | nil => intro acc h; simpa using h
  | cons kv t ih =>
    intro acc h
    simp only [List.foldl_cons]
    exact ih (sortedInsert acc kv.1 kv.2) (keysAscending_sortedInsert acc kv.1 kv.2 h)

theorem sortObjList_ascending (kvs : List (String × Json)) :
    keysAscending (sortObjList kvs) = true :=
  sortObjList_ascending_acc kvs [] rfl

theorem sortObjList_wf_acc : ∀ (kvs acc : List (String × Json)),
    kvsWF acc = true → kvsWF kvs = true →
    kvsWF (kvs.foldl (fun m kv => sortedInsert m kv.1 kv.2) acc) = true := by
  intro kvs
  induction kvs with
  | nil => intro acc h _; simpa using h
  | cons kv t ih =>
    intro acc h hkvs
    simp only [kvsWF, Bool.and_eq_true] at hkvs
    simp only [List.foldl_cons]
    exact ih (sortedInsert acc kv.1 kv.2)
      (kvsWF_sortedInsert acc kv.1 kv.2 h hkvs.1) hkvs.2

theorem sortObjList_wf (kvs : List (String × Json)) (h : kvsWF kvs = true) :
    kvsWF (sortObjList kvs) = true :=
  sortObjList_wf_acc kvs [] rfl h

/-! ### The node count bounds the printed length, and sorting fixes
well-formed trees -/

theorem jsize_pos (t : Json) : 1 ≤ jsize t := by
  cases t <;> simp [jsize]

theorem intDigits_length_pos (i : Int) : 1 ≤ (intDigits i).length := by
  unfold intDigits
  split
  · simp
  · have := natDigitsAux_ne_nil i.toNat i.toNat
    cases h : natDigits i.toNat with
    | nil => exact absurd h this
    | cons a b => simp [h]

theorem print_length_ge_aux : ∀ n : Nat,
    (∀ t, jsonWF t = true → jsize t ≤ n → jsize t ≤ (printJ t).length) ∧
    (∀ xs, arrWF xs = true → jsizeArr xs ≤ n →
      jsizeArr xs ≤ (printArr xs).length + 1) ∧
    (∀ kvs, kvsWF kvs = true → jsizeKvs kvs ≤ n →
      jsizeKvs kvs ≤ (printObj kvs).length + 1) := by
  intro n
  induction n with
  | zero =>
    refine ⟨?_, ?_, ?_⟩
    · intro t _ hs
      exact absurd hs (by have := jsize_pos t; omega)
    · intro xs _ hs
      cases xs with
      | nil => simp [jsizeArr]
      | cons x t => exact absurd hs (by simp only [jsizeArr]; omega)
    · intro kvs _ hs
      cases kvs with
      | nil => simp [jsizeKvs]
      | cons kv t => exact absurd hs (by simp only [jsizeKvs]; omega)
  | succ n ih =>
    refine ⟨?_, ?_, ?_⟩
    · intro t hwf hs
      cases t with
      | null => simp [jsize, printJ, nullTok]
      | bool b => cases b <;> simp [jsize, printJ, trueTok, falseTok]
      | num jn =>
        cases jn with
        | int i =>
          simp only [jsize, printJ]
          exact intDigits_length_pos i
        | nonInt tok => simp [jsonWF] at hwf
      | str s => simp [jsize, printJ, printStr]
      | arr xs =>
        simp only [jsonWF] at hwf
        simp only [jsize] at hs ⊢
        have := ih.2.1 xs hwf (by omega)
        simp only [printJ, List.length_cons, List.length_append]
        omega
      | obj kvs =>
        simp only [jsonWF, Bool.and_eq_true] at hwf
        simp only [jsize] at hs ⊢
        have := ih.2.2 kvs hwf.2 (by omega)
        simp only [printJ, List.length_cons, List.length_append]
        omega
    · intro xs hwf hs
      cases xs with
      | nil => simp [jsizeArr]
      | cons x t =>
        simp only [arrWF, Bool.and_eq_true] at hwf
        simp only [jsizeArr] at hs ⊢
        have h1 := ih.1 x hwf.1 (by omega)
        have h2 := ih.2.1 t hwf.2 (by omega)
        simp only [printArr, List.length_append]
        by_cases ht : t.isEmpty
        · have : t = [] := by simpa [List.isEmpty_iff] using ht
          subst this
          simp only [jsizeArr] at h2 ⊢
          simp [ht]
          omega
        · simp only [ht, Bool.false_eq_true, if_false, List.length_cons]
          omega
    · intro kvs hwf hs
      cases kvs with
      | nil => simp [jsizeKvs]
      | cons kv t =>
        simp only [kvsWF, Bool.and_eq_true] at hwf
        simp only [jsizeKvs] at hs ⊢
        have h1 := ih.1 kv.2 hwf.1 (by omega)
        have h2 := ih.2.2 t hwf.2 (by omega)
        simp only [printObj, List.length_append, List.length_cons]
        by_cases ht : t.isEmpty
        · have : t = [] := by simpa [List.isEmpty_iff] using ht
          subst this
          simp only [jsizeKvs] at h2 ⊢
          simp [ht]
          omega
        · simp only [ht, Bool.false_eq_true, if_false, List.length_cons,
            List.length_append]
          omega

theorem print_length_ge (t : Json) (h : jsonWF t = true) :
    jsize t ≤ (printJ t).length :=
  (print_length_ge_aux (jsize t)).1 t h le_rfl

theorem sortJson_id_aux : ∀ n : Nat,
    (∀ t, jsonWF t = true → jsize t ≤ n → sortJson t = t) ∧
    (∀ xs, arrWF xs = true → jsizeArr xs ≤ n → sortArr xs = xs) ∧
    (∀ kvs, kvsWF kvs = true → jsizeKvs kvs ≤ n → sortKvs kvs = kvs) := by
  intro n
  induction n with
  | zero =>
    refine ⟨?_, ?_, ?_⟩
    · intro t _ hs
      exact absurd hs (by have := jsize_pos t; omega)
    · intro xs _ hs
      cases xs with
      | nil => rfl
      | cons x t => exact absurd hs (by simp only [jsizeArr]; omega)
    · intro kvs _ hs
      cases kvs with
      | nil => rfl
      | cons kv t => exact absurd hs (by simp only [jsizeKvs]; omega)
  | succ n ih =>
    refine ⟨?_, ?_, ?_⟩
    · intro t hwf hs
      cases t with
      | null => rfl
      | bool b => rfl
      | num jn => rfl
      | str s => rfl
      | arr xs =>
        simp only [jsonWF] at hwf
        simp only [jsize] at hs
        simp only [sortJson]
        rw [ih.2.1 xs hwf (by omega)]
      | obj kvs =>
        simp only [jsonWF, Bool.and_eq_true] at hwf
        simp only [jsize] at hs
        simp only [sortJson]
        rw [ih.2.2 kvs hwf.2 (by omega), sortObjList_id kvs hwf.1]
    · intro xs hwf hs
      cases xs with
      | nil => rfl
      | cons x t =>
        simp only [arrWF, Bool.and_eq_true] at hwf
        simp only [jsizeArr] at hs
        simp only [sortArr]
        rw [ih.1 x hwf.1 (by omega), ih.2.1 t hwf.2 (by omega)]
    · intro kvs hwf hs
      cases kvs with
      | nil => rfl
      | cons kv t =>
        simp only [kvsWF, Bool.and_eq_true] at hwf
        simp only [jsizeKvs] at hs
        simp only [sortKvs]
        rw [ih.1 kv.2 hwf.1 (by omega), ih.2.2 t hwf.2 (by omega)]

theorem sortJson_id (t : Json) (h : jsonWF t = true) : sortJson t = t :=
  (sortJson_id_aux (jsize t)).1 t h le_rfl

/-! ### Values returned by the parser are well formed -/

theorem parseNumber_shape (l : List Char) (j : Json) (r : List Char)
    (h : parseNumber l = .ok (j, r)) : ∃ v, j = .num (.int v) := by
  simp only [parseNumber] at h
  repeat' split at h
  all_goals simp at h
  all_goals exact ⟨_, h.1.symm⟩

theorem parse_wf_aux : ∀ n : Nat,
    (∀ input t rest, parseVal n input = .ok (t, rest) → jsonWF t = true) ∧
    (∀ input xs rest, parseItems n input = .ok (xs, rest) → arrWF xs = true) ∧
    (∀ input kvs rest, parseMembers n input = .ok (kvs, rest) → kvsWF kvs = true) := by
  intro n
  induction n with
  | zero =>
    refine ⟨?_, ?_, ?_⟩
    · intro input t rest h; simp [parseVal] at h
    · intro input xs rest h; simp [parseItems] at h
    · intro input kvs rest h; simp [parseMembers] at h
  | succ n ih =>
    refine ⟨?_, ?_, ?_⟩
    · intro input t rest h
      simp only [parseVal] at h
      repeat' split at h
      all_goals try (simp at h)
      · rw [← h.1]; simp [jsonWF]
      · rw [← h.1]; simp [jsonWF]
      · rw [← h.1]; simp [jsonWF]
      · rw [← h.1]; simp [jsonWF]
      · rw [← h.1]; simp [jsonWF, arrWF]
      · rw [← h.1]
        simp only [jsonWF]
        exact ih.2.1 _ _ _ (by assumption)
      · rw [← h.1]; simp [jsonWF, keysAscending, kvsWF]
      · rw [← h.1]
        simp only [jsonWF, Bool.and_eq_true]
        exact ⟨sortObjList_ascending _, sortObjList_wf _ (ih.2.2 _ _ _ (by assumption))⟩
      · obtain ⟨v, rfl⟩ := parseNumber_shape _ _ _ h
        simp [jsonWF]
    · intro input xs rest h
      simp only [parseItems] at h
      repeat' split at h
      all_goals try (simp at h)
      · rw [← h.1]
        simp only [arrWF, Bool.and_eq_true, Bool.and_true]
        exact ⟨ih.1 _ _ _ (by assumption), ih.2.1 _ _ _ (by assumption)⟩
      · rw [← h.1]
        simp only [arrWF, Bool.and_eq_true, Bool.and_true]
        exact ih.1 _ _ _ (by assumption)
    · intro input kvs rest h
      simp only [parseMembers] at h
      repeat' split at h
      all_goals try (simp at h)
      · rw [← h.1]
        simp only [kvsWF, Bool.and_eq_true, Bool.and_true]
        exact ⟨ih.1 _ _ _ (by assumption), ih.2.2 _ _ _ (by assumption)⟩
      · rw [← h.1]
        simp only [kvsWF, Bool.and_eq_true, Bool.and_true]
        exact ih.1 _ _ _ (by assumption)


theorem goUnmarshal_wf (s : String) (t : Json) (h : goUnmarshal s = .ok t) :
    jsonWF t = true := by
  simp only [goUnmarshal] at h
  repeat' split at h
  all_goals try (simp at h)
  subst h
  exact (parse_wf_aux _).1 _ _ _ (by assumption)

/-! ### Heads of printed values and the parse/print round trip -/

theorem numBd_cons (c : Char) (l : List Char) :
    numBd (c :: l) = !(c.isDigit || c == '.' || c == 'e' || c == 'E') := rfl

theorem digitChar_extra : ∀ d, d < 10 →
    Char.ofNat (48 + d) ≠ ']' ∧
    ((Char.ofNat (48 + d) == '-' || (Char.ofNat (48 + d)).isDigit) = true) := by
  decide

theorem intDigits_cons (i : Int) : ∃ c tl, intDigits i = c :: tl ∧
    isWsChar c = false ∧ (c == 'n') = false ∧ (c == 't') = false ∧
    (c == 'f') = false ∧ (c == '"') = false ∧ (c == '[') = false ∧
    (c == lbraceChar) = false ∧ (c == '-' || c.isDigit) = true ∧ c ≠ ']' := by
  by_cases hi : i < 0
  · refine ⟨'-', natDigits (-i).toNat, ?_, by decide, by decide, by decide,
      by decide, by decide, by decide, by decide, by decide, by decide⟩
    simp [intDigits, hi]
  · obtain ⟨c0, tl, hck⟩ : ∃ c0 tl, natDigits i.toNat = c0 :: tl := by
      cases h : natDigits i.toNat with
      | nil => exact absurd h (natDigitsAux_ne_nil i.toNat i.toNat)
      | cons a b => exact ⟨a, b, rfl⟩
    have hc0 : c0 ∈ natDigits i.toNat := by
      rw [hck]; exact List.mem_cons_self c0 tl
    obtain ⟨d0, hd0, rfl⟩ := natDigitsAux_digits i.toNat i.toNat le_rfl c0 hc0
    have hd := digitChar_dispatch d0 hd0
    have he := digitChar_extra d0 hd0
    refine ⟨Char.ofNat (48 + d0), tl, ?_, digitChar_not_ws d0 hd0, hd.1,
      hd.2.1, hd.2.2.1, hd.2.2.2.1, hd.2.2.2.2.1, hd.2.2.2.2.2.1, he.2, he.1⟩
    simp [intDigits, hi, hck]

theorem printJ_head (t : Json) (h : jsonWF t = true) : ∃ c tl,
    printJ t = c :: tl ∧ isWsChar c = false ∧ c ≠ ']' := by
  cases t with
  | null => exact ⟨'n', _, rfl, by decide, by decide⟩
  | bool b =>
    cases b
    · exact ⟨'f', _, rfl, by decide, by decide⟩
    · exact ⟨'t', _, rfl, by decide, by decide⟩
  | num jn =>
    cases jn with
    | int i =>
      obtain ⟨c, tl, hcons, hws, _, _, _, _, _, _, _, hnb⟩ := intDigits_cons i
      exact ⟨c, tl, by simp [printJ, hcons], hws, hnb⟩
    | nonInt tok => simp [jsonWF] at h
  | str s => exact ⟨'"', _, rfl, by decide, by decide⟩
  | arr xs => exact ⟨'[', _, rfl, by decide, by decide⟩
  | obj kvs => exact ⟨lbraceChar, _, rfl, by decide, by decide⟩

theorem skipWs_eq_self (l : List Char) (c : Char) (tl : List Char)
    (hl : l = c :: tl) (hc : isWsChar c = false) : skipWs l = l := by
  subst hl
  exact skipWs_cons c tl hc

theorem parse_print_aux : ∀ n : Nat,
    (∀ t rest, jsonWF t = true → jsize t ≤ n → numBd rest = true →
      parseVal n (printJ t ++ rest) = .ok (t, rest)) ∧
    (∀ xs rest, xs ≠ [] → arrWF xs = true → jsizeArr xs ≤ n →
      parseItems n (printArr xs ++ ']' :: rest) = .ok (xs, rest)) ∧
    (∀ kvs rest, kvs ≠ [] → kvsWF kvs = true → jsizeKvs kvs ≤ n →
      parseMembers n (printObj kvs ++ rbraceChar :: rest) = .ok (kvs, rest)) := by
  intro n
  induction n with
  | zero =>
    refine ⟨?_, ?_, ?_⟩
    · intro t rest hwf hs hbd
      exact absurd hs (by have := jsize_pos t; omega)
    · intro xs rest hne hwf hs
      cases xs with
      | nil => exact absurd rfl hne
      | cons x t => exact absurd hs (by simp only [jsizeArr]; omega)
    · intro kvs rest hne hwf hs
      cases kvs with
      | nil => exact absurd rfl hne
      | cons kv t => exact absurd hs (by simp only [jsizeKvs]; omega)
  | succ n ih =>
    refine ⟨?_, ?_, ?_⟩
    · intro t rest hwf hs hbd
      cases t with
      | null => simp [printJ, nullTok, parseVal, skipWs, isWsChar, stripChars]
      | bool b =>
        cases b <;> simp [printJ, trueTok, falseTok, parseVal, skipWs,
          isWsChar, stripChars]
      | num jn =>
        cases jn with
        | nonInt tok => simp [jsonWF] at hwf
        | int i =>
          obtain ⟨c, tl, hcons, hws, hn, ht, hf, hq, hbr, hlb, hnum, _⟩ :=
            intDigits_cons i
          simp only [printJ]
          rw [hcons, List.cons_append]
          simp only [parseVal]
          rw [skipWs_cons c _ hws]
          simp only [hn, ht, hf, hq, hbr, hlb, hnum, Bool.false_eq_true,
            if_false, if_true]
          rw [← List.cons_append, ← hcons]
          exact parseNumber_roundtrip i rest hbd
      | str s =>
        simp [printJ, printStr, parseVal, skipWs, isWsChar,
          List.append_assoc, parseStringBody_roundtrip s.data rest]
      | arr xs =>
        cases xs with
        | nil => simp [printJ, printArr, parseVal, skipWs, isWsChar]
        | cons x hd =>
          simp only [jsonWF] at hwf
          have hwf2 : jsonWF x = true ∧ arrWF hd = true := by
            simpa [arrWF, Bool.and_eq_true] using hwf
          simp only [jsize, jsizeArr] at hs
          obtain ⟨c0, tl0, hpx, hws0, hnb0⟩ := printJ_head x hwf2.1
          simp only [printJ]
          simp only [List.cons_append, List.nil_append, List.append_assoc]
          simp only [parseVal]
          rw [skipWs_cons '[' _ (by decide)]
          simp only [show (('[' : Char) == 'n') = false from by decide,
            show (('[' : Char) == 't') = false from by decide,
            show (('[' : Char) == 'f') = false from by decide,
            show (('[' : Char) == '"') = false from by decide,
            show (('[' : Char) == '[') = true from by decide,
            Bool.false_eq_true, if_false, if_true]
          have hshape : printArr (x :: hd) ++ ']' :: rest =
              c0 :: (tl0 ++ ((if hd.isEmpty then [] else ',' :: printArr hd) ++
                ']' :: rest)) := by
            simp only [printArr, hpx, List.cons_append, List.append_assoc]
          rw [skipWs_eq_self _ _ _ hshape hws0]
          split
          · rename_i rest2 heq
            rw [hshape, List.cons.injEq] at heq
            exact absurd heq.1 hnb0
          · rw [ih.2.1 (x :: hd) rest (by simp) hwf (by simp only [jsizeArr]; omega)]
      | obj kvs =>
        cases kvs with
        | nil => simp [printJ, printObj, parseVal, skipWs, isWsChar, lbraceChar,
            rbraceChar]
        | cons kv t2 =>
          simp only [jsonWF, Bool.and_eq_true] at hwf
          simp only [jsize, jsizeKvs] at hs
          simp only [printJ]
          simp only [List.cons_append, List.nil_append, List.append_assoc]
          simp only [parseVal]
          rw [skipWs_cons lbraceChar _ (by decide)]
          simp only [show ((lbraceChar : Char) == 'n') = false from by decide,
            show ((lbraceChar : Char) == 't') = false from by decide,
            show ((lbraceChar : Char) == 'f') = false from by decide,
            show ((lbraceChar : Char) == '"') = false from by decide,
            show ((lbraceChar : Char) == '[') = false from by decide,
            show ((lbraceChar : Char) == lbraceChar) = true from by decide,
            Bool.false_eq_true, if_false, if_true]
          have hshape : printObj (kv :: t2) ++ rbraceChar :: rest =
              '"' :: (escapeChars kv.1.data ++ '"' :: (':' :: (printJ kv.2 ++
                ((if t2.isEmpty then [] else ',' :: printObj t2) ++
                  rbraceChar :: rest)))) := by
            simp only [printObj, printStr, List.cons_append, List.nil_append,
              List.append_assoc]
          rw [skipWs_eq_self _ _ _ hshape (by decide)]
          rw [hshape]
          dsimp only
          simp only [show (('"' : Char) == rbraceChar) = false from by decide,
            Bool.false_eq_true, if_false]
          rw [← hshape]
          rw [ih.2.2 (kv :: t2) rest (by simp) hwf.2 (by simp only [jsizeKvs]; omega)]
          dsimp only
          rw [sortObjList_id (kv :: t2) hwf.1]
    · intro xs rest hne hwf hs
      cases xs with
      | nil => exact absurd rfl hne
      | cons x t =>
        simp only [arrWF, Bool.and_eq_true] at hwf
        simp only [jsizeArr] at hs
        simp only [parseItems]
        cases t with
        | nil =>
          have hin : printArr [x] ++ ']' :: rest = printJ x ++ (']' :: rest) := by
            simp [printArr]
          rw [hin, ih.1 x (']' :: rest) hwf.1 (by omega)
            (by rw [numBd_cons]; decide)]
          dsimp only
          rw [skipWs_cons ']' rest (by decide)]
          simp
        | cons y t2 =>
          have hin : printArr (x :: y :: t2) ++ ']' :: rest =
              printJ x ++ (',' :: (printArr (y :: t2) ++ ']' :: rest)) := by
            simp [printArr]
          rw [hin, ih.1 x _ hwf.1 (by omega) (by rw [numBd_cons]; decide)]
          dsimp only
          have hsw := skipWs_cons ',' (printArr (y :: t2) ++ ']' :: rest)
            (by decide)
          have hrec := ih.2.1 (y :: t2) rest (by simp) hwf.2 (by simp only [jsizeArr] at hs ⊢; omega)
          simp [hsw, hrec]
    · intro kvs rest hne hwf hs
      cases kvs with
      | nil => exact absurd rfl hne
      | cons kv t2 =>
        simp only [kvsWF, Bool.and_eq_true] at hwf
        simp only [jsizeKvs] at hs
        simp only [parseMembers]
        cases t2 with
        | nil =>
          have hin : printObj [kv] ++ rbraceChar :: rest =
              '"' :: (escapeChars kv.1.data ++ '"' :: (':' :: (printJ kv.2 ++
                rbraceChar :: rest))) := by
            simp [printObj, printStr]
          have hsb := parseStringBody_roundtrip kv.1.data
            (':' :: (printJ kv.2 ++ rbraceChar :: rest))
          have hv := ih.1 kv.2 (rbraceChar :: rest) hwf.1 (by omega)
            (by rw [numBd_cons]; decide)
          have heta : ({ data := kv.1.data } : String) = kv.1 := rfl
          simp only [rbraceChar] at hsb hv
          rw [hin]
          simp [skipWs, isWsChar, rbraceChar, hsb, hv, heta]
        | cons kv2 t3 =>
          have hin : printObj (kv :: kv2 :: t3) ++ rbraceChar :: rest =
              '"' :: (escapeChars kv.1.data ++ '"' :: (':' :: (printJ kv.2 ++
                ',' :: (printObj (kv2 :: t3) ++ rbraceChar :: rest)))) := by
            simp [printObj, printStr]
          have hsb := parseStringBody_roundtrip kv.1.data
            (':' :: (printJ kv.2 ++ ',' :: (printObj (kv2 :: t3) ++
              rbraceChar :: rest)))
          have hv := ih.1 kv.2
            (',' :: (printObj (kv2 :: t3) ++ rbraceChar :: rest))
            hwf.1 (by omega) (by rw [numBd_cons]; decide)
          have hrec := ih.2.2 (kv2 :: t3) rest (by simp) hwf.2
            (by simp only [jsizeKvs] at hs ⊢; omega)
          have heta : ({ data := kv.1.data } : String) = kv.1 := rfl
          simp only [rbraceChar] at hsb hv hrec
          rw [hin]
          simp [skipWs, isWsChar, rbraceChar, hsb, hv, hrec, heta]

theorem goUnmarshal_goMarshal (t : Json) (h : jsonWF t = true) :
    goUnmarshal (goMarshal t) = .ok t := by
  simp only [goMarshal, sortJson_id t h]
  simp only [goUnmarshal]
  have hfuel : jsize t ≤ (printJ t).length + 1 := by
    have := print_length_ge t h
    omega
  have hrt := (parse_print_aux ((printJ t).length + 1)).1 t [] h hfuel rfl
  rw [List.append_nil] at hrt
  simp [hrt, skipWs]

/-- C9: for every schema text accepted by the model of NewCodec, the stored
schema is the JSON parse/serialize round trip of the input (whitespace
stripped, object keys sorted), and running NewCodec again on that stored
schema succeeds, returns the same codec, and stores the identical canonical
text: canonicalization is idempotent. -/
theorem newCodec_canonicalization {κ : Type} (build : Json → Except String κ)
    (s : String) (c : κ) (canon : String)
    (h : NewCodecModel build s = .ok (c, canon)) :
    (∃ t, goUnmarshal s = .ok t ∧ canon = goMarshal t) ∧
    NewCodecModel build canon = .ok (c, canon) := by
  simp only [NewCodecModel] at h
  cases hu : goUnmarshal s with
  | error e =>
    rw [hu] at h
    simp at h
  | ok t =>
    rw [hu] at h
    dsimp only at h
    cases hb : build t with
    | error e =>
      rw [hb] at h
      simp at h
    | ok c2 =>
      rw [hb] at h
      simp only [Except.ok.injEq, Prod.mk.injEq] at h
      obtain ⟨hc, hcanon⟩ := h
      subst hc
      subst hcanon
      have hwf := goUnmarshal_wf s t hu
      refine ⟨⟨t, rfl, rfl⟩, ?_⟩
      simp only [NewCodecModel]
      rw [goUnmarshal_goMarshal t hwf]
      dsimp only
      rw [hb]

/-- C9 (witness): the schema text `\x7b"type": "int"\x7d` canonicalizes to
`\x7b"type":"int"\x7d` (space stripped), which NewCodec accepts again with
the identical canonical form. -/
theorem newCodec_canonicalization_witness :
    NewCodecModel (fun _ => Except.ok (0 : Nat)) "\x7b\"type\": \"int\"\x7d" =
      .ok (0, "\x7b\"type\":\"int\"\x7d") ∧
    ((∃ t, goUnmarshal "\x7b\"type\": \"int\"\x7d" = .ok t ∧
        "\x7b\"type\":\"int\"\x7d" = goMarshal t) ∧
      NewCodecModel (fun _ => Except.ok (0 : Nat)) "\x7b\"type\":\"int\"\x7d" =
        .ok (0, "\x7b\"type\":\"int\"\x7d")) :=
  ⟨rfl, newCodec_canonicalization _ _ _ _ rfl⟩

/-- C10: the claim is false of the code — the fixed JSON decoder's unchecked
type assertion `someValue.([]byte)` cannot succeed for any value produced by
the generic JSON string decoder, so for every fixed codec and every JSON
input value the call aborts with a Go runtime panic instead of returning a
Fixed value or an error. -/
theorem fixedJdf_always_panics :
    ∀ (size : Int) (nmn : String) (j : Json),
      fixedJdf size nmn j =
        .panicked "interface conversion: interface is not []uint8" :=
  fun _ _ _ => rfl

end Goavro
